import Mathlib

/-!
Verification of the pure-Python team-name standardizer
(`src/pure_python_solution.py`) against its specification.

The development shallowly embeds the engine: scores are exact rationals
standing for the Python floats, strings are Lean `String`s (ASCII
semantics for case folding and `\w`/`\s` character classes, which covers
every input appearing in the repository), and the regex substitutions of
`_normalize_text` are embedded as a literal word-boundary substitution
scanner equivalent to `re.sub` on the fixed tables of the source.
-/

namespace TeamStd

/-- Python `\w` (ASCII): letters, digits, underscore. -/
def isWordChar (c : Char) : Bool := c.isAlphanum || c = '_'

/-- Word-character test on an optional char; a missing char (string edge)
counts as a non-word position, as in `re`. -/
def wordAt : Option Char → Bool
  | none => false
  | some c => isWordChar c

/-- A `\b` word boundary sits between two positions exactly when one side
is a word character and the other is not (or is the string edge). -/
def boundOk (a b : Option Char) : Bool := wordAt a != wordAt b

/-- Literal pattern match at the head of a string; returns the remainder. -/
def matchLit : List Char → List Char → Option (List Char)
  | [], s => some s
  | _ :: _, [] => none
  | p :: ps, c :: cs => if p = c then matchLit ps cs else none

theorem matchLit_length {pat s rest : List Char} (h : matchLit pat s = some rest) :
    rest.length + pat.length = s.length := by
  induction pat generalizing s with
  | nil => simp [matchLit] at h; simp [h]
  | cons p ps ih =>
    match s with
    | [] => simp [matchLit] at h
    | c :: cs =>
      simp only [matchLit] at h
      split at h
      · have := ih h
        simp only [List.length_cons]
        omega
      · exact absurd h (by simp)

/-- Try the alternatives of one substitution pass, in order, at the current
position.  An alternative fires when its literal characters match and the
`\b` assertions hold on both sides (`prev` is the character just before the
position).  Returns the last matched character, the replacement, and the
rest of the input.  Mirrors `re.sub` alternation with `\b`-delimited
literal alternatives. -/
def findRepl : List (List Char × List Char) → Option Char → List Char →
    Option (Char × List Char × List Char)
  | [], _, _ => none
  | ([], _) :: alts, prev, s => findRepl alts prev s
  | (p :: ps, repl) :: alts, prev, s =>
    match matchLit (p :: ps) s with
    | some rest =>
      if boundOk prev (some p) && boundOk (some (ps.getLastD p)) rest.head? then
        some (ps.getLastD p, repl, rest)
      else findRepl alts prev s
    | none => findRepl alts prev s

theorem findRepl_length {alts : List (List Char × List Char)} {prev : Option Char}
    {s : List Char} {lc : Char} {repl rest : List Char}
    (h : findRepl alts prev s = some (lc, repl, rest)) : rest.length < s.length := by
  induction alts with
  | nil => simp [findRepl] at h
  | cons hd tl ih =>
    match hd with
    | ([], r) => exact ih (by simpa [findRepl] using h)
    | (p :: ps, r) =>
      simp only [findRepl] at h
      split at h
      next rest' hm =>
        split at h
        · simp only [Option.some.injEq, Prod.mk.injEq] at h
          obtain ⟨h1, h2, h3⟩ := h
          subst h3
          have := matchLit_length hm
          simp only [List.length_cons] at this
          omega
        · exact ih h
      next hm => exact ih h

/-- One left-to-right `re.sub` scan: at each position try the alternatives;
on a match emit the replacement and continue after the matched text,
otherwise keep the character.  `prev` tracks the previous character of the
*subject* string for the `\b` tests, exactly as the regex engine sees it.
Every step consumes at least one input character, so fuel equal to the
input length always suffices;  `subScan` supplies it. -/
def subScanF (alts : List (List Char × List Char)) :
    Nat → Option Char → List Char → List Char
  | 0, _, s => s
  | _ + 1, _, [] => []
  | fuel + 1, prev, c :: cs =>
    match findRepl alts prev (c :: cs) with
    | some (lc, repl, rest) => repl ++ subScanF alts fuel (some lc) rest
    | none => c :: subScanF alts fuel (some c) cs

def subScan (alts : List (List Char × List Char)) (prev : Option Char)
    (s : List Char) : List Char :=
  subScanF alts s.length prev s

/-- The `city_abbrev` table of `_normalize_text`, in dict order.  Each entry
is applied as its own `re.sub` pass (`\b`-delimited literal pattern). -/
def abbrevTable : List (List Char × List Char) :=
  [("la".data, "los angeles".data),
   ("n.y.".data, "new york".data),
   ("ny".data, "new york".data),
   ("s.f.".data, "san francisco".data),
   ("sf".data, "san francisco".data),
   ("d.c.".data, "washington".data),
   ("dc".data, "washington".data),
   ("l.a.".data, "los angeles".data),
   ("chi".data, "chicago".data),
   ("phila".data, "philadelphia".data),
   ("n.o.".data, "new orleans".data),
   ("no".data, "new orleans".data),
   ("s.a.".data, "san antonio".data),
   ("sa".data, "san antonio".data),
   ("utd".data, "united".data),
   ("fc".data, []),
   ("sc".data, []),
   ("ac".data, []),
   ("bc".data, []),
   ("ht".data, "heat".data),
   ("mn".data, "minnesota".data),
   ("man.".data, "manchester".data)]

/-- First `patterns_to_remove` alternation: organizational qualifiers. -/
def removeTable1 : List (List Char × List Char) :=
  [("fc".data, []), ("cf".data, []), ("sc".data, []), ("ac".data, []),
   ("bc".data, []), ("fk".data, []), ("kk".data, []), ("club".data, []),
   ("team".data, []), ("basketball".data, []), ("football".data, [])]

/-- Second `patterns_to_remove` alternation: stop-words and `&`. -/
def removeTable2 : List (List Char × List Char) :=
  [("real".data, []), ("de".data, []), ("del".data, []), ("la".data, []),
   ("le".data, []), ("the".data, []), ("of".data, []), ("and".data, []),
   ("&".data, [])]

/-- `[^\w\s]` replaced by a space. -/
def punctFix (c : Char) : Char :=
  if isWordChar c || c.isWhitespace then c else ' '

theorem dropWhile_length_le (p : Char → Bool) (l : List Char) :
    (l.dropWhile p).length ≤ l.length := by
  induction l with
  | nil => simp
  | cons c cs ih =>
    by_cases h : p c
    · simp only [List.dropWhile, h]
      exact Nat.le_trans ih (Nat.le_succ _)
    · simp [List.dropWhile, h]

/-- `re.sub(r'\s+', ' ', text)`: collapse each whitespace run to one space
(fuel-bounded structural recursion; each step consumes at least one
character, so the input length is always enough fuel). -/
def collapseF : Nat → List Char → List Char
  | 0, l => l
  | _ + 1, [] => []
  | fuel + 1, c :: cs =>
    if c.isWhitespace then ' ' :: collapseF fuel (cs.dropWhile Char.isWhitespace)
    else c :: collapseF fuel cs

def collapseWs (l : List Char) : List Char := collapseF l.length l

/-- Python `str.strip()` (ASCII whitespace), on the character list. -/
def trimChars (l : List Char) : List Char :=
  ((l.dropWhile Char.isWhitespace).reverse.dropWhile Char.isWhitespace).reverse

/-- Python `str.strip()`. -/
def pyStrip (s : String) : String := String.mk (trimChars s.data)

/-- Python `str.lower()` (ASCII case folding). -/
def pyLower (s : String) : String := String.mk (s.data.map Char.toLower)

/-- `_normalize_text` of `PurePythonFuzzyMatcher`: lowercase and trim,
expand the abbreviation table (one `re.sub` per entry, in dict order),
strip the two removal alternations, replace punctuation by spaces, collapse
whitespace and trim. -/
def normalizeText (s : String) : String :=
  if s = "" then ""
  else
    let t0 := (pyStrip (pyLower s)).data
    let t1 := abbrevTable.foldl (fun t pr => subScan [pr] none t) t0
    let t2 := subScan removeTable1 none t1
    let t3 := subScan removeTable2 none t2
    let t4 := t3.map punctFix
    pyStrip (String.mk (collapseWs t4))

/-!  Levenshtein distance.  `levRec` is the textbook recurrence the DP
matrix of `_levenshtein_distance` tabulates (`matrix[i][j]` = distance of
the length-`i` and length-`j` prefixes); `levRows` computes the same values
row by row so that concrete evaluation is quadratic, and is proved equal. -/

def levRec : List Char → List Char → Nat
  | [], b => b.length
  | a, [] => a.length
  | x :: xs, y :: ys =>
    min (levRec xs (y :: ys) + 1)
      (min (levRec (x :: xs) ys + 1)
        (levRec xs ys + (if x = y then 0 else 1)))
termination_by a b => a.length + b.length
decreasing_by all_goals simp_arith

/-- The row of distances `levRec xs ys'` for every suffix `ys'` of `ys`
(current suffix first, the `[]` suffix last). -/
def rowSpec (xs : List Char) : List Char → List Nat
  | [] => [xs.length]
  | y :: ys => levRec xs (y :: ys) :: rowSpec xs ys

/-- One DP step: from the row for `xs` produce the row for `x :: xs`. -/
def rowNext (x : Char) : List Char → List Nat → List Nat
  | [], p => [p.headD 0 + 1]
  | y :: ys, p =>
    let rest := rowNext x ys p.tail
    (min (p.headD 0 + 1)
      (min (rest.headD 0 + 1)
        (p.tail.headD 0 + (if x = y then 0 else 1)))) :: rest

def baseRow : List Char → List Nat
  | [] => [0]
  | _ :: ys => (ys.length + 1) :: baseRow ys

def levRows (b : List Char) : List Char → List Nat
  | [] => baseRow b
  | x :: xs => rowNext x b (levRows b xs)

/-- Levenshtein distance as the code computes it (head of the final row). -/
def levDist (s1 s2 : String) : Nat := (levRows s2.data s1.data).headD 0

theorem levRec_nil_left (b : List Char) : levRec [] b = b.length := by
  cases b <;> simp [levRec]

theorem levRec_nil_right (a : List Char) : levRec a [] = a.length := by
  cases a <;> simp [levRec]

theorem levRec_cons_cons (x y : Char) (xs ys : List Char) :
    levRec (x :: xs) (y :: ys) =
      min (levRec xs (y :: ys) + 1)
        (min (levRec (x :: xs) ys + 1)
          (levRec xs ys + (if x = y then 0 else 1))) := by
  rw [levRec]

theorem baseRow_eq (b : List Char) : baseRow b = rowSpec [] b := by
  induction b with
  | nil => simp [baseRow, rowSpec]
  | cons y ys ih => simp [baseRow, rowSpec, ih, levRec_nil_left]

theorem rowSpec_head (xs b : List Char) : (rowSpec xs b).headD 0 = levRec xs b := by
  cases b with
  | nil => simp [rowSpec, levRec_nil_right]
  | cons y ys => simp [rowSpec]

theorem rowSpec_headq (xs b : List Char) : (rowSpec xs b).head?.getD 0 = levRec xs b := by
  cases b with
  | nil => simp [rowSpec, levRec_nil_right]
  | cons y ys => simp [rowSpec]

theorem rowNext_eq (x : Char) (xs b : List Char) :
    rowNext x b (rowSpec xs b) = rowSpec (x :: xs) b := by
  induction b with
  | nil => simp [rowNext, rowSpec, levRec_nil_right]
  | cons y ys ih =>
    simp only [rowNext, rowSpec, List.tail_cons]
    rw [ih]
    simp only [List.cons.injEq, and_true]
    rw [levRec_cons_cons]
    simp [rowSpec_headq]

theorem levRows_eq (b a : List Char) : levRows b a = rowSpec a b := by
  induction a with
  | nil => exact baseRow_eq b
  | cons x xs ih => simp [levRows, ih, rowNext_eq]

theorem levDist_eq (s1 s2 : String) : levDist s1 s2 = levRec s1.data s2.data := by
  rw [levDist, levRows_eq, rowSpec_head]

theorem levRec_symm (a b : List Char) : levRec a b = levRec b a := by
  induction a generalizing b with
  | nil => rw [levRec_nil_left, levRec_nil_right]
  | cons x xs ih =>
    induction b with
    | nil => rw [levRec_nil_left, levRec_nil_right]
    | cons y ys ihb =>
      rw [levRec_cons_cons, levRec_cons_cons]
      rw [ih (y :: ys), ihb, ih ys]
      have hc : (if x = y then 0 else 1) = (if y = x then 0 else 1) := by
        by_cases h : x = y
        · simp [h]
        · have h2 : ¬y = x := fun hyx => h hyx.symm
          simp [h, h2]
      rw [hc]
      omega

theorem levRec_self (a : List Char) : levRec a a = 0 := by
  induction a with
  | nil => simp [levRec]
  | cons x xs ih =>
    rw [levRec_cons_cons]
    simp [ih]

theorem levRec_le_max (a b : List Char) : levRec a b ≤ max a.length b.length := by
  induction a generalizing b with
  | nil => simp [levRec]
  | cons x xs ih =>
    cases b with
    | nil => simp [levRec_nil_right]
    | cons y ys =>
      rw [levRec]
      have h1 := ih ys
      have h3 : levRec xs ys + (if x = y then 0 else 1) ≤ max xs.length ys.length + 1 := by
        have : (if x = y then 0 else 1) ≤ 1 := by split <;> omega
        omega
      have h4 : min (levRec xs (y :: ys) + 1)
          (min (levRec (x :: xs) ys + 1) (levRec xs ys + (if x = y then 0 else 1)))
          ≤ levRec xs ys + (if x = y then 0 else 1) := by
        exact le_trans (Nat.min_le_right _ _) (Nat.min_le_right _ _)
      refine le_trans h4 (le_trans h3 ?_)
      simp only [List.length_cons]
      omega

/-- `_levenshtein_ratio`. -/
def levRatioQ (s1 s2 : String) : ℚ :=
  if max s1.length s2.length = 0 then 1
  else 1 - (levDist s1 s2 : ℚ) / ((max s1.length s2.length : ℕ) : ℚ)

theorem levRatioQ_symm (a b : String) : levRatioQ a b = levRatioQ b a := by
  unfold levRatioQ
  rw [levDist_eq, levDist_eq, levRec_symm, Nat.max_comm]

theorem lev_le_len (a b : String) : levDist a b ≤ max a.length b.length := by
  rw [levDist_eq]
  exact levRec_le_max a.data b.data

theorem levRatioQ_nonneg (a b : String) : 0 ≤ levRatioQ a b := by
  unfold levRatioQ
  split
  · norm_num
  · next h =>
    have hd : levDist a b ≤ max a.length b.length := lev_le_len a b
    have hm : (0 : ℚ) < ((max a.length b.length : ℕ) : ℚ) := by
      have : 0 < max a.length b.length := Nat.pos_of_ne_zero h
      exact_mod_cast this
    have hq : (levDist a b : ℚ) / ((max a.length b.length : ℕ) : ℚ) ≤ 1 := by
      rw [div_le_one hm]
      exact_mod_cast hd
    linarith

theorem levRatioQ_le_one (a b : String) : levRatioQ a b ≤ 1 := by
  unfold levRatioQ
  split
  · norm_num
  · next h =>
    have hm : (0 : ℚ) < ((max a.length b.length : ℕ) : ℚ) := by
      have : 0 < max a.length b.length := Nat.pos_of_ne_zero h
      exact_mod_cast this
    have : (0 : ℚ) ≤ (levDist a b : ℚ) / ((max a.length b.length : ℕ) : ℚ) :=
      div_nonneg (by positivity) (le_of_lt hm)
    linarith

theorem levDist_self (a : String) : levDist a a = 0 := by
  rw [levDist_eq, levRec_self]

theorem levRatioQ_self (a : String) : levRatioQ a a = 1 := by
  unfold levRatioQ
  split
  · rfl
  · rw [levDist_self]
    norm_num

/-!  Jaro similarity (`_jaro_similarity`).  The match-identification loop is
embedded as `jrun`: for each index `i` of `s1` (in order) it claims the
first unclaimed index `j` of `s2` inside the match window with
`s2[j] = s1[i]`, exactly as the Python double loop with its `s2_matches`
flag array (`used` is the set of claimed `j`s).  Transpositions are counted
by zipping the two matched-character sequences, which is what the Python
`k`-walk over `s2_matches` computes. -/

/-- The first free in-window match column: first `j` with `lo ≤ j < hi`,
`s2[j] = c` and `j` not yet claimed. -/
def findCol (b : List Char) (used : List Nat) (c : Char) (lo hi : Nat) : Option Nat :=
  ((List.range b.length).filter
    (fun j => decide (lo ≤ j) && decide (j < hi) && (b.getD j ' ' == c) && !(used.contains j))).head?

/-- Python's match window `max(len1,len2)//2 - 1` clamped at 0 (truncated
subtraction does the clamping). -/
def jwin (l1 l2 : Nat) : Nat := max l1 l2 / 2 - 1

/-- The match loop over the indexed characters of `s1`. -/
def jrun (b : List Char) (w : Nat) : List (Nat × Char) → List Nat → List (Nat × Nat)
  | [], _ => []
  | (i, c) :: rest, used =>
    match findCol b used c (i - w) (i + w + 1) with
    | some j => (i, j) :: jrun b w rest (j :: used)
    | none => jrun b w rest used

/-- The indexed characters `(i, s1[i])` for `i in range(len1)`. -/
def idxs (a : List Char) : List (Nat × Char) :=
  (List.range a.length).map (fun i => (i, a.getD i ' '))

/-- Matched `(i, j)` pairs of the Jaro loop. -/
def jpairs (a b : List Char) : List (Nat × Nat) :=
  jrun b (jwin a.length b.length) (idxs a) []

/-- Matched characters of `s1`, in match (= index) order. -/
def jm1 (a b : List Char) : List Char :=
  (jpairs a b).map (fun p => a.getD p.1 ' ')

/-- Matched characters of `s2`, scanned in index order (the Python pass
over `s2_matches`). -/
def jm2 (a b : List Char) : List Char :=
  ((List.range b.length).filter
    (fun j => ((jpairs a b).map Prod.snd).contains j)).map (fun j => b.getD j ' ')

/-- Transposition count: mismatches between the two matched sequences. -/
def jt (a b : List Char) : Nat :=
  ((jm1 a b).zip (jm2 a b)).countP (fun p => p.1 != p.2)

/-- `_jaro_similarity`. -/
def jaroQ (s1 s2 : String) : ℚ :=
  if s1 = "" ∨ s2 = "" then 0
  else if s1 = s2 then 1
  else
    if (jpairs s1.data s2.data).length = 0 then 0
    else
      (((jpairs s1.data s2.data).length : ℚ) / s1.length
        + ((jpairs s1.data s2.data).length : ℚ) / s2.length
        + (((jpairs s1.data s2.data).length : ℚ) - (jt s1.data s2.data : ℚ) / 2)
            / ((jpairs s1.data s2.data).length : ℚ)) / 3

theorem mem_of_headq {α : Type} {l : List α} {a : α} (h : l.head? = some a) : a ∈ l := by
  cases l with
  | nil => simp at h
  | cons x xs =>
    simp only [List.head?_cons, Option.some.injEq] at h
    simp [h]

theorem findCol_mem {b : List Char} {used : List Nat} {c : Char} {lo hi j : Nat}
    (h : findCol b used c lo hi = some j) :
    j < b.length ∧ b.getD j ' ' = c ∧ j ∉ used ∧ lo ≤ j ∧ j < hi := by
  unfold findCol at h
  have hm := mem_of_headq h
  simp only [List.mem_filter, List.mem_range, Bool.and_eq_true, decide_eq_true_eq,
    beq_iff_eq, Bool.not_eq_true'] at hm
  obtain ⟨hr, ⟨⟨hlo, hhi⟩, hc⟩, hu⟩ := hm
  refine ⟨hr, hc, ?_, hlo, hhi⟩
  intro hmem
  simp [List.contains, List.elem_iff.mpr hmem] at hu
  exact hu hmem

theorem jrun_length_le (b : List Char) (w : Nat) (idxd : List (Nat × Char)) (used : List Nat) :
    (jrun b w idxd used).length ≤ idxd.length := by
  induction idxd generalizing used with
  | nil => simp [jrun]
  | cons ic rest ih =>
    obtain ⟨i, c⟩ := ic
    simp only [jrun]
    cases h : findCol b used c (i - w) (i + w + 1) with
    | some j => simpa using Nat.succ_le_succ (ih (j :: used))
    | none => exact Nat.le_trans (ih used) (Nat.le_succ _)

theorem jrun_snd_prop (b : List Char) (w : Nat) (idxd : List (Nat × Char)) (used : List Nat) :
    ∀ p ∈ jrun b w idxd used, p.2 < b.length ∧ p.2 ∉ used := by
  induction idxd generalizing used with
  | nil => simp [jrun]
  | cons ic rest ih =>
    obtain ⟨i, c⟩ := ic
    simp only [jrun]
    cases h : findCol b used c (i - w) (i + w + 1) with
    | some j =>
      intro p hp
      rcases List.mem_cons.mp hp with hp | hp
      · subst hp
        obtain ⟨h1, _, h3, _⟩ := findCol_mem h
        exact ⟨h1, h3⟩
      · obtain ⟨h1, h2⟩ := ih (j :: used) p hp
        exact ⟨h1, fun hm => h2 (List.mem_cons_of_mem _ hm)⟩
    | none => exact ih used

theorem jrun_snd_nodup (b : List Char) (w : Nat) (idxd : List (Nat × Char)) (used : List Nat) :
    ((jrun b w idxd used).map Prod.snd).Nodup := by
  induction idxd generalizing used with
  | nil => simp [jrun]
  | cons ic rest ih =>
    obtain ⟨i, c⟩ := ic
    simp only [jrun]
    cases h : findCol b used c (i - w) (i + w + 1) with
    | some j =>
      simp only [List.map_cons, List.nodup_cons]
      refine ⟨?_, ih (j :: used)⟩
      intro hj
      obtain ⟨p, hp, hpe⟩ := List.mem_map.mp hj
      have := (jrun_snd_prop b w rest (j :: used) p hp).2
      exact this (hpe ▸ List.mem_cons_self j used)
    | none => exact ih used

theorem jrun_fst_sublist (b : List Char) (w : Nat) (idxd : List (Nat × Char)) (used : List Nat) :
    ((jrun b w idxd used).map Prod.fst).Sublist (idxd.map Prod.fst) := by
  induction idxd generalizing used with
  | nil => simp [jrun]
  | cons ic rest ih =>
    obtain ⟨i, c⟩ := ic
    simp only [jrun]
    cases h : findCol b used c (i - w) (i + w + 1) with
    | some j =>
      simp only [List.map_cons]
      exact List.Sublist.cons₂ i (ih (j :: used))
    | none =>
      simp only [List.map_cons]
      exact List.Sublist.cons i (ih used)

/-- Each matched pair's row carries the character the loop processed. -/
theorem jrun_mem_idxd (b : List Char) (w : Nat) (idxd : List (Nat × Char)) (used : List Nat) :
    ∀ p ∈ jrun b w idxd used, ∃ c, (p.1, c) ∈ idxd ∧ b.getD p.2 ' ' = c := by
  induction idxd generalizing used with
  | nil => simp [jrun]
  | cons ic rest ih =>
    obtain ⟨i, c⟩ := ic
    simp only [jrun]
    cases h : findCol b used c (i - w) (i + w + 1) with
    | some j =>
      intro p hp
      rcases List.mem_cons.mp hp with hp | hp
      · subst hp
        exact ⟨c, List.mem_cons_self _ _, (findCol_mem h).2.1⟩
      · obtain ⟨c', hc1, hc2⟩ := ih (j :: used) p hp
        exact ⟨c', List.mem_cons_of_mem _ hc1, hc2⟩
    | none =>
      intro p hp
      obtain ⟨c', hc1, hc2⟩ := ih used p hp
      exact ⟨c', List.mem_cons_of_mem _ hc1, hc2⟩

theorem nodup_lt_length {cols : List Nat} {n : Nat} (hnd : cols.Nodup)
    (hlt : ∀ j ∈ cols, j < n) : cols.length ≤ n := by
  have h1 : cols.toFinset.card = cols.length := List.toFinset_card_of_nodup hnd
  have h2 : cols.toFinset ⊆ Finset.range n := by
    intro j hj
    simp only [List.mem_toFinset] at hj
    simpa using hlt j hj
  have := Finset.card_le_card h2
  simp only [Finset.card_range] at this
  omega

theorem length_filter_contains {cols : List Nat} {n : Nat} (hnd : cols.Nodup)
    (hlt : ∀ j ∈ cols, j < n) :
    ((List.range n).filter (fun j => cols.contains j)).length = cols.length := by
  have h1 : ((List.range n).filter (fun j => cols.contains j)).Nodup :=
    (List.nodup_range n).filter _
  rw [← List.toFinset_card_of_nodup h1, ← List.toFinset_card_of_nodup hnd]
  congr 1
  ext j
  simp only [List.mem_toFinset, List.mem_filter, List.mem_range, List.contains, List.elem_iff]
  exact ⟨fun h => h.2, fun h => ⟨hlt j h, h⟩⟩

theorem idxs_length (a : List Char) : (idxs a).length = a.length := by
  simp [idxs]

theorem jpairs_length_le_left (a b : List Char) : (jpairs a b).length ≤ a.length := by
  have := jrun_length_le b (jwin a.length b.length) (idxs a) []
  rw [idxs_length] at this
  simpa [jpairs] using this

theorem jpairs_length_le_right (a b : List Char) : (jpairs a b).length ≤ b.length := by
  have hnd := jrun_snd_nodup b (jwin a.length b.length) (idxs a) []
  have hlt : ∀ j ∈ (jpairs a b).map Prod.snd, j < b.length := by
    intro j hj
    obtain ⟨p, hp, hpe⟩ := List.mem_map.mp hj
    exact hpe ▸ (jrun_snd_prop b (jwin a.length b.length) (idxs a) [] p hp).1
  have := @nodup_lt_length ((jpairs a b).map Prod.snd) _ hnd hlt
  simpa using this

theorem jm1_length (a b : List Char) : (jm1 a b).length = (jpairs a b).length := by
  simp [jm1]

theorem jm2_length (a b : List Char) : (jm2 a b).length = (jpairs a b).length := by
  have hnd := jrun_snd_nodup b (jwin a.length b.length) (idxs a) []
  have hlt : ∀ j ∈ (jpairs a b).map Prod.snd, j < b.length := by
    intro j hj
    obtain ⟨p, hp, hpe⟩ := List.mem_map.mp hj
    exact hpe ▸ (jrun_snd_prop b (jwin a.length b.length) (idxs a) [] p hp).1
  rw [jpairs] at hlt
  have := length_filter_contains (n := b.length) hnd hlt
  simp only [jm2, jpairs, List.length_map]
  rw [this]
  simp

theorem jt_le (a b : List Char) : jt a b ≤ (jpairs a b).length := by
  have h1 : jt a b ≤ ((jm1 a b).zip (jm2 a b)).length := List.countP_le_length _
  have h2 : ((jm1 a b).zip (jm2 a b)).length = min (jm1 a b).length (jm2 a b).length :=
    List.length_zip _ _
  rw [h2, jm1_length, jm2_length] at h1
  simpa using h1

theorem jaroQ_nonneg (a b : String) : 0 ≤ jaroQ a b := by
  unfold jaroQ
  split
  · norm_num
  split
  · norm_num
  split
  · norm_num
  next h1 h2 hm =>
    have hm1 : 1 ≤ (jpairs a.data b.data).length := Nat.one_le_iff_ne_zero.mpr hm
    have hl1 : (jpairs a.data b.data).length ≤ a.data.length := jpairs_length_le_left _ _
    have hl2 : (jpairs a.data b.data).length ≤ b.data.length := jpairs_length_le_right _ _
    have ht : jt a.data b.data ≤ (jpairs a.data b.data).length := jt_le _ _
    set m := (jpairs a.data b.data).length with hmdef
    have hmq : (1 : ℚ) ≤ (m : ℚ) := by exact_mod_cast hm1
    have hl1q : (m : ℚ) ≤ (a.length : ℚ) := by exact_mod_cast hl1
    have hl2q : (m : ℚ) ≤ (b.length : ℚ) := by exact_mod_cast hl2
    have htq : (jt a.data b.data : ℚ) ≤ (m : ℚ) := by exact_mod_cast ht
    have htq0 : (0 : ℚ) ≤ (jt a.data b.data : ℚ) := by positivity
    have h1p : (0 : ℚ) < (a.length : ℚ) := by linarith
    have h2p : (0 : ℚ) < (b.length : ℚ) := by linarith
    have hmp : (0 : ℚ) < (m : ℚ) := by linarith
    have d1 : (0 : ℚ) ≤ (m : ℚ) / (a.length : ℚ) := by positivity
    have d2 : (0 : ℚ) ≤ (m : ℚ) / (b.length : ℚ) := by positivity
    have d3 : (0 : ℚ) ≤ ((m : ℚ) - (jt a.data b.data : ℚ) / 2) / (m : ℚ) := by
      apply div_nonneg _ (le_of_lt hmp)
      linarith
    linarith

theorem jaroQ_le_one (a b : String) : jaroQ a b ≤ 1 := by
  unfold jaroQ
  split
  · norm_num
  split
  · norm_num
  split
  · norm_num
  next h1 h2 hm =>
    have hm1 : 1 ≤ (jpairs a.data b.data).length := Nat.one_le_iff_ne_zero.mpr hm
    have hl1 : (jpairs a.data b.data).length ≤ a.data.length := jpairs_length_le_left _ _
    have hl2 : (jpairs a.data b.data).length ≤ b.data.length := jpairs_length_le_right _ _
    have ht : jt a.data b.data ≤ (jpairs a.data b.data).length := jt_le _ _
    set m := (jpairs a.data b.data).length with hmdef
    have hmq : (1 : ℚ) ≤ (m : ℚ) := by exact_mod_cast hm1
    have hl1q : (m : ℚ) ≤ (a.length : ℚ) := by exact_mod_cast hl1
    have hl2q : (m : ℚ) ≤ (b.length : ℚ) := by exact_mod_cast hl2
    have htq0 : (0 : ℚ) ≤ (jt a.data b.data : ℚ) := by positivity
    have h1p : (0 : ℚ) < (a.length : ℚ) := by linarith
    have h2p : (0 : ℚ) < (b.length : ℚ) := by linarith
    have hmp : (0 : ℚ) < (m : ℚ) := by linarith
    have d1 : (m : ℚ) / (a.length : ℚ) ≤ 1 := (div_le_one h1p).mpr hl1q
    have d2 : (m : ℚ) / (b.length : ℚ) ≤ 1 := (div_le_one h2p).mpr hl2q
    have d3 : ((m : ℚ) - (jt a.data b.data : ℚ) / 2) / (m : ℚ) ≤ 1 := by
      apply (div_le_one hmp).mpr
      linarith
    linarith

theorem jaroQ_self (a : String) (h : a ≠ "") : jaroQ a a = 1 := by
  unfold jaroQ
  simp [h]

/-!  Symmetry of the Jaro match loop.  The loop decomposes by character:
positions of distinct characters never interact, and on the positions of a
single character it is a first-fit matcher over a sliding band, which is
proved equal to a manifestly symmetric two-pointer sweep. -/

/-- Positions of character `c` in `b`, ascending. -/
def posns (c : Char) (b : List Char) : List Nat :=
  (List.range b.length).filter (fun j => b.getD j ' ' == c)

/-- Single-character first-fit: each row `p` (ascending) claims the first
remaining column within the band. -/
def ffc (w : Nat) : List Nat → List Nat → List (Nat × Nat)
  | [], _ => []
  | p :: ps, qs =>
    match (qs.filter (fun q => decide (p - w ≤ q) && decide (q < p + w + 1))).head? with
    | some q => (p, q) :: ffc w ps (qs.erase q)
    | none => ffc w ps qs

/-- Two-pointer band matcher; symmetric by construction. -/
def tp (w : Nat) : List Nat → List Nat → List (Nat × Nat)
  | [], _ => []
  | _ :: _, [] => []
  | p :: ps, q :: qs =>
    if q + w < p then tp w (p :: ps) qs
    else if p + w < q then tp w ps (q :: qs)
    else (p, q) :: tp w ps qs
termination_by ps qs => ps.length + qs.length
decreasing_by all_goals simp_arith

theorem findCol_eq_posns (b : List Char) (used : List Nat) (c : Char) (lo hi : Nat) :
    findCol b used c lo hi =
      (((posns c b).filter (fun j => !(used.contains j))).filter
        (fun j => decide (lo ≤ j) && decide (j < hi))).head? := by
  unfold findCol posns
  rw [List.filter_filter, List.filter_filter]
  congr 1
  apply List.filter_congr
  intro j _
  cases hb : (b.getD j ' ' == c) <;> cases hu : (used.contains j) <;>
    cases hlo : decide (lo ≤ j) <;> cases hhi : decide (j < hi) <;> simp [hb, hu, hlo, hhi]

theorem posns_nodup (c : Char) (b : List Char) : (posns c b).Nodup :=
  (List.nodup_range b.length).filter _

theorem posns_sorted (c : Char) (b : List Char) : (posns c b).Sorted (· < ·) :=
  (List.sorted_lt_range b.length).filter _

theorem mem_posns {c : Char} {b : List Char} {j : Nat} :
    j ∈ posns c b ↔ j < b.length ∧ b.getD j ' ' = c := by
  simp [posns]

theorem contains_cons_ne {used : List Nat} {x j : Nat} (hxj : x ≠ j) :
    (j :: used).contains x = used.contains x := by
  simp only [List.contains, List.elem]
  have : (x == j) = false := by simpa using hxj
  rw [this]

/-- Removing a freshly claimed column from the free filter is `erase`. -/
theorem filter_cons_used {l used : List Nat} {j : Nat} (hnd : l.Nodup)
    (hju : j ∉ used) :
    l.filter (fun q => !((j :: used).contains q)) =
      (l.filter (fun q => !(used.contains q))).erase j := by
  induction l with
  | nil => rfl
  | cons x xs ih =>
    have hnd' : xs.Nodup := hnd.of_cons
    by_cases hxj : x = j
    · subst hxj
      have hxs : x ∉ xs := (List.nodup_cons.mp hnd).1
      have h1 : xs.filter (fun q => !((x :: used).contains q)) =
          xs.filter (fun q => !(used.contains q)) := by
        apply List.filter_congr
        intro q hq
        have hqx : q ≠ x := fun he => hxs (he ▸ hq)
        rw [contains_cons_ne hqx]
      have hx1 : ((x :: used).contains x) = true := by
        simp [List.contains, List.elem]
      have hx2 : (used.contains x) = false := by
        cases hc : used.contains x
        · rfl
        · exact absurd (List.elem_iff.mp hc) hju
      simp only [List.filter_cons, hx1, hx2, Bool.not_true, Bool.not_false,
        eq_self_iff_true, if_true, if_false, Bool.false_eq_true]
      rw [h1, List.erase_cons_head]
    · have hcx := @contains_cons_ne used _ _ hxj
      simp only [List.filter_cons, hcx]
      cases hux : (used.contains x) with
      | true =>
        simp only [Bool.not_true]
        simpa using ih hnd'
      | false =>
        simp only [Bool.not_false, eq_self_iff_true, if_true]
        rw [ih hnd', List.erase_cons_tail (not_beq_of_ne hxj)]

/-- A column of a different character never affects this character's pool. -/
theorem filter_cons_other {l used : List Nat} {j : Nat} (hjl : j ∉ l) :
    l.filter (fun q => !((j :: used).contains q)) =
      l.filter (fun q => !(used.contains q)) := by
  apply List.filter_congr
  intro q hq
  have hqj : q ≠ j := fun he => hjl (he ▸ hq)
  rw [contains_cons_ne hqj]

theorem not_contains_of_mem_filter {l used : List Nat} {q : Nat}
    (h : q ∈ l.filter (fun q => !(used.contains q))) : q ∉ used := by
  have hu := (List.mem_filter.mp h).2
  intro hmem
  simp [List.contains, List.elem_iff.mpr hmem] at hu
  exact hu hmem

/-- The Jaro loop, restricted to the matches of one character, is the
single-character first-fit matcher on that character's position lists. -/
theorem jrun_class_decomp (b : List Char) (w : Nat) (c : Char)
    (idxd : List (Nat × Char)) (used : List Nat) :
    (jrun b w idxd used).filter (fun pr => b.getD pr.2 ' ' == c) =
      ffc w ((idxd.filter (fun ic => ic.2 == c)).map Prod.fst)
        ((posns c b).filter (fun q => !(used.contains q))) := by
  induction idxd generalizing used with
  | nil => simp [jrun, ffc]
  | cons ic rest ih =>
    obtain ⟨i, c'⟩ := ic
    by_cases hcc : c' = c
    · subst hcc
      have hfil : ((i, c') :: rest).filter (fun ic => ic.2 == c') =
          (i, c') :: rest.filter (fun ic => ic.2 == c') := by
        simp [List.filter_cons]
      rw [hfil]
      simp only [List.map_cons]
      rw [show jrun b w ((i, c') :: rest) used =
        (match findCol b used c' (i - w) (i + w + 1) with
         | some j => (i, j) :: jrun b w rest (j :: used)
         | none => jrun b w rest used) from rfl]
      rw [findCol_eq_posns]
      rw [show ffc w (i :: (rest.filter (fun ic => ic.2 == c')).map Prod.fst)
            ((posns c' b).filter (fun q => !(used.contains q))) =
          (match (((posns c' b).filter (fun q => !(used.contains q))).filter
              (fun q => decide (i - w ≤ q) && decide (q < i + w + 1))).head? with
           | some q => (i, q) :: ffc w ((rest.filter (fun ic => ic.2 == c')).map Prod.fst)
              (((posns c' b).filter (fun q => !(used.contains q))).erase q)
           | none => ffc w ((rest.filter (fun ic => ic.2 == c')).map Prod.fst)
              ((posns c' b).filter (fun q => !(used.contains q)))) from rfl]
      cases hq : (((posns c' b).filter (fun q => !(used.contains q))).filter
          (fun q => decide (i - w ≤ q) && decide (q < i + w + 1))).head? with
      | some q =>
        have hqm := mem_of_headq hq
        have hqrem := (List.mem_filter.mp hqm).1
        have hqpos := (List.mem_filter.mp hqrem).1
        have hqc : b.getD q ' ' = c' := (mem_posns.mp hqpos).2
        have hqu : q ∉ used := not_contains_of_mem_filter hqrem
        simp only []
        rw [List.filter_cons]
        have : (b.getD (i, q).2 ' ' == c') = true := by simpa using hqc
        rw [this]
        simp only [if_true, eq_self_iff_true]
        rw [ih (q :: used)]
        rw [filter_cons_used (posns_nodup c' b) hqu]
      | none =>
        simp only []
        exact ih used
    · have hfil : ((i, c') :: rest).filter (fun ic => ic.2 == c) =
          rest.filter (fun ic => ic.2 == c) := by
        simp [List.filter_cons, hcc]
      rw [hfil]
      rw [show jrun b w ((i, c') :: rest) used =
        (match findCol b used c' (i - w) (i + w + 1) with
         | some j => (i, j) :: jrun b w rest (j :: used)
         | none => jrun b w rest used) from rfl]
      cases hj : findCol b used c' (i - w) (i + w + 1) with
      | some j =>
        have hjc : b.getD j ' ' = c' := (findCol_mem hj).2.1
        simp only []
        rw [List.filter_cons]
        have : (b.getD (i, j).2 ' ' == c) = false := by
          simp only [beq_eq_false_iff_ne]
          exact fun he => hcc (hjc ▸ he)
        rw [this]
        simp only [if_false, Bool.false_eq_true]
        rw [ih (j :: used)]
        congr 1
        apply filter_cons_other
        intro hjp
        exact hcc ((mem_posns.mp hjp).2 ▸ hjc.symm ▸ rfl)
      | none =>
        simp only []
        exact ih used

theorem ffc_nil_right (w : Nat) (ps : List Nat) : ffc w ps [] = [] := by
  induction ps with
  | nil => rfl
  | cons p ps ih => simp [ffc, ih]

/-- A column below every remaining row's band can be dropped. -/
theorem ffc_drop_q {w : Nat} {q : Nat} (ps qs : List Nat)
    (hq : ∀ p ∈ ps, q + w < p) :
    ffc w ps (q :: qs) = ffc w ps qs := by
  induction ps generalizing qs with
  | nil => rfl
  | cons p ps ih =>
    have hqp : q + w < p := hq p (List.mem_cons_self _ _)
    have hband : (decide (p - w ≤ q) && decide (q < p + w + 1)) = false := by
      have : ¬(p - w ≤ q) := by omega
      simp [this]
    have hfq : (q :: qs).filter (fun r => decide (p - w ≤ r) && decide (r < p + w + 1)) =
        qs.filter (fun r => decide (p - w ≤ r) && decide (r < p + w + 1)) := by
      simp only [List.filter_cons, hband]
      simp
    rw [show ffc w (p :: ps) (q :: qs) =
      (match ((q :: qs).filter (fun r => decide (p - w ≤ r) && decide (r < p + w + 1))).head? with
       | some r => (p, r) :: ffc w ps ((q :: qs).erase r)
       | none => ffc w ps (q :: qs)) from rfl]
    rw [show ffc w (p :: ps) qs =
      (match (qs.filter (fun r => decide (p - w ≤ r) && decide (r < p + w + 1))).head? with
       | some r => (p, r) :: ffc w ps (qs.erase r)
       | none => ffc w ps qs) from rfl]
    rw [hfq]
    cases hr : (qs.filter (fun r => decide (p - w ≤ r) && decide (r < p + w + 1))).head? with
    | some r =>
      have hrm := mem_of_headq hr
      have hrb := (List.mem_filter.mp hrm).2
      have hrq : r ≠ q := by
        intro he
        rw [he] at hrb
        rw [hband] at hrb
        simp at hrb
      simp only []
      rw [List.erase_cons_tail (not_beq_of_ne (fun he => hrq he.symm))]
      congr 1
      exact ih _ (fun p' hp' => hq p' (List.mem_cons_of_mem _ hp'))
    | none =>
      simp only []
      exact ih _ (fun p' hp' => hq p' (List.mem_cons_of_mem _ hp'))

theorem tp_nil_left (w : Nat) (qs : List Nat) : tp w [] qs = [] := by
  rw [tp]

theorem tp_nil_right (w : Nat) (ps : List Nat) : tp w ps [] = [] := by
  cases ps with
  | nil => rw [tp]
  | cons p ps' => rw [tp]

theorem ffc_eq_tp (w : Nat) : ∀ (n : Nat) (ps qs : List Nat),
    ps.length + qs.length ≤ n → ps.Sorted (· < ·) → qs.Sorted (· < ·) →
    ffc w ps qs = tp w ps qs := by
  intro n
  induction n with
  | zero =>
    intro ps qs hlen _ _
    have : ps = [] := by
      cases ps with
      | nil => rfl
      | cons _ _ => simp at hlen
    subst this
    rw [ffc, tp_nil_left]
  | succ n ih =>
    intro ps qs hlen hps hqs
    cases ps with
    | nil => rw [ffc, tp_nil_left]
    | cons p ps' =>
      cases qs with
      | nil => rw [ffc_nil_right, tp_nil_right]
      | cons q qs' =>
        by_cases h1 : q + w < p
        · have hall : ∀ p' ∈ p :: ps', q + w < p' := by
            intro p' hp'
            rcases List.mem_cons.mp hp' with he | hm
            · exact he ▸ h1
            · have := (List.sorted_cons.mp hps).1 p' hm
              omega
          rw [ffc_drop_q _ _ hall]
          rw [show tp w (p :: ps') (q :: qs') = tp w (p :: ps') qs' from by
            rw [tp]; simp [h1]]
          exact ih (p :: ps') qs' (by simp at hlen ⊢; omega) hps (List.sorted_cons.mp hqs).2
        · by_cases h2 : p + w < q
          · have hfilnil : ((q :: qs').filter
                (fun r => decide (p - w ≤ r) && decide (r < p + w + 1))) = [] := by
              apply List.filter_eq_nil_iff.mpr
              intro r hr
              have hrq : q ≤ r := by
                rcases List.mem_cons.mp hr with he | hm
                · omega
                · exact Nat.le_of_lt ((List.sorted_cons.mp hqs).1 r hm)
              have : ¬(r < p + w + 1) := by omega
              simp [this]
            rw [show ffc w (p :: ps') (q :: qs') =
              (match ((q :: qs').filter
                  (fun r => decide (p - w ≤ r) && decide (r < p + w + 1))).head? with
               | some r => (p, r) :: ffc w ps' ((q :: qs').erase r)
               | none => ffc w ps' (q :: qs')) from rfl]
            rw [hfilnil]
            simp only [List.head?_nil]
            rw [show tp w (p :: ps') (q :: qs') = tp w ps' (q :: qs') from by
              rw [tp]; simp [h1, h2]]
            exact ih ps' (q :: qs') (by simp at hlen ⊢; omega) (List.sorted_cons.mp hps).2 hqs
          · have hband : (decide (p - w ≤ q) && decide (q < p + w + 1)) = true := by
              have hb1 : p - w ≤ q := by omega
              have hb2 : q < p + w + 1 := by omega
              simp [hb1, hb2]
            rw [show ffc w (p :: ps') (q :: qs') =
              (match ((q :: qs').filter
                  (fun r => decide (p - w ≤ r) && decide (r < p + w + 1))).head? with
               | some r => (p, r) :: ffc w ps' ((q :: qs').erase r)
               | none => ffc w ps' (q :: qs')) from rfl]
            rw [List.filter_cons]
            rw [hband]
            simp only [if_true, eq_self_iff_true, List.head?_cons]
            rw [List.erase_cons_head]
            rw [show tp w (p :: ps') (q :: qs') = (p, q) :: tp w ps' qs' from by
              rw [tp]; simp [h1, h2]]
            congr 1
            exact ih ps' qs' (by simp at hlen ⊢; omega)
              (List.sorted_cons.mp hps).2 (List.sorted_cons.mp hqs).2

/-- The two-pointer sweep is symmetric up to swapping the pairs. -/
theorem tp_swap (w : Nat) : ∀ (n : Nat) (ps qs : List Nat),
    ps.length + qs.length ≤ n →
    tp w ps qs = (tp w qs ps).map Prod.swap := by
  intro n
  induction n with
  | zero =>
    intro ps qs hlen
    have hp : ps = [] := by
      cases ps with
      | nil => rfl
      | cons _ _ => simp at hlen
    have hq : qs = [] := by
      cases qs with
      | nil => rfl
      | cons _ _ => subst hp; simp at hlen
    subst hp; subst hq
    simp [tp_nil_left]
  | succ n ih =>
    intro ps qs hlen
    cases ps with
    | nil =>
      cases qs with
      | nil => simp [tp_nil_left]
      | cons q qs' => simp [tp_nil_left, tp_nil_right]
    | cons p ps' =>
      cases qs with
      | nil => simp [tp_nil_left, tp_nil_right]
      | cons q qs' =>
        by_cases h1 : q + w < p
        · have h2 : ¬(p + w < q) := by omega
          rw [show tp w (p :: ps') (q :: qs') = tp w (p :: ps') qs' from by
            rw [tp]; simp [h1]]
          rw [show tp w (q :: qs') (p :: ps') = tp w qs' (p :: ps') from by
            rw [tp]; simp [h1, h2]]
          exact ih (p :: ps') qs' (by simp at hlen ⊢; omega)
        · by_cases h2 : p + w < q
          · rw [show tp w (p :: ps') (q :: qs') = tp w ps' (q :: qs') from by
              rw [tp]; simp [h1, h2]]
            rw [show tp w (q :: qs') (p :: ps') = tp w (q :: qs') ps' from by
              rw [tp]; simp [h2]]
            exact ih ps' (q :: qs') (by simp at hlen ⊢; omega)
          · rw [show tp w (p :: ps') (q :: qs') = (p, q) :: tp w ps' qs' from by
              rw [tp]; simp [h1, h2]]
            rw [show tp w (q :: qs') (p :: ps') = (q, p) :: tp w qs' ps' from by
              rw [tp]; simp [h1, h2]]
            simp only [List.map_cons, Prod.swap_prod_mk]
            congr 1
            exact ih ps' qs' (by simp at hlen ⊢; omega)

theorem ffc_sub {w : Nat} : ∀ {ps qs : List Nat} {pr : Nat × Nat},
    pr ∈ ffc w ps qs → pr.1 ∈ ps ∧ pr.2 ∈ qs := by
  intro ps
  induction ps with
  | nil => intro qs pr h; simp [ffc] at h
  | cons p ps' ih =>
    intro qs pr h
    rw [show ffc w (p :: ps') qs =
      (match (qs.filter (fun q => decide (p - w ≤ q) && decide (q < p + w + 1))).head? with
       | some q => (p, q) :: ffc w ps' (qs.erase q)
       | none => ffc w ps' qs) from rfl] at h
    cases hq : (qs.filter (fun q => decide (p - w ≤ q) && decide (q < p + w + 1))).head? with
    | some q =>
      rw [hq] at h
      rcases List.mem_cons.mp h with he | hm
      · subst he
        exact ⟨List.mem_cons_self _ _, (List.mem_filter.mp (mem_of_headq hq)).1⟩
      · obtain ⟨h1, h2⟩ := ih hm
        exact ⟨List.mem_cons_of_mem _ h1, (qs.erase_sublist q).mem h2⟩
    | none =>
      rw [hq] at h
      obtain ⟨h1, h2⟩ := ih h
      exact ⟨List.mem_cons_of_mem _ h1, h2⟩

theorem idxs_map_fst (a : List Char) : (idxs a).map Prod.fst = List.range a.length := by
  unfold idxs
  rw [List.map_map]
  have h : (Prod.fst ∘ fun i => (i, a.getD i ' ')) = id := by funext i; rfl
  rw [h, List.map_id]

theorem mem_idxs {a : List Char} {i : Nat} {c : Char} :
    (i, c) ∈ idxs a ↔ i < a.length ∧ c = a.getD i ' ' := by
  simp only [idxs, List.mem_map, List.mem_range]
  constructor
  · rintro ⟨i', hi', he⟩
    obtain ⟨h1, h2⟩ := Prod.mk.inj he
    exact ⟨h1 ▸ hi', h2.symm.trans (by rw [h1])⟩
  · rintro ⟨h1, h2⟩
    exact ⟨i, h1, by rw [h2]⟩

theorem idxs_filter_class (a : List Char) (c : Char) :
    ((idxs a).filter (fun ic => ic.2 == c)).map Prod.fst = posns c a := by
  unfold idxs posns
  rw [List.filter_map, List.map_map]
  have h1 : (Prod.fst ∘ fun i => (i, a.getD i ' ')) = id := by funext i; rfl
  have h2 : ((fun ic : Nat × Char => ic.2 == c) ∘ fun i => (i, a.getD i ' ')) =
      (fun j => a.getD j ' ' == c) := by funext i; rfl
  rw [h1, h2, List.map_id]

/-- The per-character view of the full match list. -/
theorem jclass_eq (a b : List Char) (c : Char) :
    (jpairs a b).filter (fun pr => b.getD pr.2 ' ' == c) =
      ffc (jwin a.length b.length) (posns c a) (posns c b) := by
  unfold jpairs
  rw [jrun_class_decomp]
  rw [idxs_filter_class]
  congr 1
  have : ∀ q : Nat, (!(([] : List Nat).contains q)) = true := by intro q; rfl
  simp [List.filter_congr (fun q _ => this q)]

theorem mem_rows_iff (a b : List Char) (i : Nat) :
    i ∈ (jpairs a b).map Prod.fst ↔
      i ∈ (ffc (jwin a.length b.length) (posns (a.getD i ' ') a)
            (posns (a.getD i ' ') b)).map Prod.fst := by
  constructor
  · intro h
    obtain ⟨pr, hpr, hfst⟩ := List.mem_map.mp h
    obtain ⟨c0, hc0, hbc⟩ := jrun_mem_idxd b (jwin a.length b.length) (idxs a) [] pr hpr
    have hc0' : c0 = a.getD pr.1 ' ' := (mem_idxs.mp hc0).2
    have hcls : (b.getD pr.2 ' ' == a.getD i ' ') = true := by
      rw [hbc, hc0', hfst]
      simp
    have hmem : pr ∈ (jpairs a b).filter (fun pr => b.getD pr.2 ' ' == a.getD i ' ') :=
      List.mem_filter.mpr ⟨hpr, hcls⟩
    rw [jclass_eq] at hmem
    exact List.mem_map.mpr ⟨pr, hmem, hfst⟩
  · intro h
    obtain ⟨pr, hpr, hfst⟩ := List.mem_map.mp h
    rw [← jclass_eq] at hpr
    exact List.mem_map.mpr ⟨pr, (List.mem_filter.mp hpr).1, hfst⟩

theorem mem_cols_iff (a b : List Char) (j : Nat) :
    j ∈ (jpairs a b).map Prod.snd ↔
      j ∈ (ffc (jwin a.length b.length) (posns (b.getD j ' ') a)
            (posns (b.getD j ' ') b)).map Prod.snd := by
  constructor
  · intro h
    obtain ⟨pr, hpr, hsnd⟩ := List.mem_map.mp h
    have hcls : (b.getD pr.2 ' ' == b.getD j ' ') = true := by rw [hsnd]; simp
    have hmem : pr ∈ (jpairs a b).filter (fun pr => b.getD pr.2 ' ' == b.getD j ' ') :=
      List.mem_filter.mpr ⟨hpr, hcls⟩
    rw [jclass_eq] at hmem
    exact List.mem_map.mpr ⟨pr, hmem, hsnd⟩
  · intro h
    obtain ⟨pr, hpr, hsnd⟩ := List.mem_map.mp h
    rw [← jclass_eq] at hpr
    exact List.mem_map.mpr ⟨pr, (List.mem_filter.mp hpr).1, hsnd⟩

/-- Matched rows of one direction are the matched columns of the other. -/
theorem rows_eq_cols_swap (a b : List Char) (i : Nat) :
    i ∈ (jpairs a b).map Prod.fst ↔ i ∈ (jpairs b a).map Prod.snd := by
  rw [mem_rows_iff, mem_cols_iff]
  set c := a.getD i ' ' with hc
  set w := jwin a.length b.length with hw
  have hw2 : jwin b.length a.length = w := by rw [hw]; unfold jwin; rw [Nat.max_comm]
  rw [hw2]
  have hffc1 : ffc w (posns c a) (posns c b) = tp w (posns c a) (posns c b) :=
    ffc_eq_tp w ((posns c a).length + (posns c b).length) _ _ le_rfl
      (posns_sorted c a) (posns_sorted c b)
  have hffc2 : ffc w (posns c b) (posns c a) = tp w (posns c b) (posns c a) :=
    ffc_eq_tp w ((posns c b).length + (posns c a).length) _ _ le_rfl
      (posns_sorted c b) (posns_sorted c a)
  rw [hffc1, hffc2]
  rw [tp_swap w ((posns c a).length + (posns c b).length) _ _ le_rfl]
  rw [List.map_map]
  constructor
  · intro h
    obtain ⟨pr, hpr, he⟩ := List.mem_map.mp h
    exact List.mem_map.mpr ⟨pr, hpr, he⟩
  · intro h
    obtain ⟨pr, hpr, he⟩ := List.mem_map.mp h
    exact List.mem_map.mpr ⟨pr, hpr, he⟩

/-- Two strictly sorted lists of naturals with equal membership are equal. -/
theorem sorted_eq_of_mem : ∀ {l1 l2 : List Nat}, l1.Sorted (· < ·) → l2.Sorted (· < ·) →
    (∀ x, x ∈ l1 ↔ x ∈ l2) → l1 = l2 := by
  intro l1
  induction l1 with
  | nil =>
    intro l2 _ _ h
    cases l2 with
    | nil => rfl
    | cons y ys => exact absurd ((h y).mpr (List.mem_cons_self _ _)) (by simp)
  | cons x xs ih =>
    intro l2 hs1 hs2 h
    cases l2 with
    | nil => exact absurd ((h x).mp (List.mem_cons_self _ _)) (by simp)
    | cons y ys =>
      have hxy : x = y := by
        have hx2 : x ∈ y :: ys := (h x).mp (List.mem_cons_self _ _)
        have hy1 : y ∈ x :: xs := (h y).mpr (List.mem_cons_self _ _)
        rcases List.mem_cons.mp hx2 with he | hm
        · exact he
        · rcases List.mem_cons.mp hy1 with he' | hm'
          · exact he'.symm
          · have h1 : y < x := (List.sorted_cons.mp hs2).1 x hm
            have h2 : x < y := (List.sorted_cons.mp hs1).1 y hm'
            omega
      subst hxy
      congr 1
      apply ih (List.sorted_cons.mp hs1).2 (List.sorted_cons.mp hs2).2
      intro z
      constructor
      · intro hz
        have hxz : x < z := (List.sorted_cons.mp hs1).1 z hz
        have := (h z).mp (List.mem_cons_of_mem _ hz)
        rcases List.mem_cons.mp this with he | hm
        · omega
        · exact hm
      · intro hz
        have hxz : x < z := (List.sorted_cons.mp hs2).1 z hz
        have := (h z).mpr (List.mem_cons_of_mem _ hz)
        rcases List.mem_cons.mp this with he | hm
        · omega
        · exact hm

theorem rows_sorted (a b : List Char) : ((jpairs a b).map Prod.fst).Sorted (· < ·) := by
  have hsub := jrun_fst_sublist b (jwin a.length b.length) (idxs a) []
  rw [idxs_map_fst] at hsub
  exact (List.sorted_lt_range a.length).sublist hsub

theorem rows_lt (a b : List Char) : ∀ i ∈ (jpairs a b).map Prod.fst, i < a.length := by
  have hsub := jrun_fst_sublist b (jwin a.length b.length) (idxs a) []
  rw [idxs_map_fst] at hsub
  intro i hi
  exact List.mem_range.mp (hsub.mem hi)

theorem cols_lt (a b : List Char) : ∀ j ∈ (jpairs a b).map Prod.snd, j < b.length := by
  intro j hj
  obtain ⟨p, hp, hpe⟩ := List.mem_map.mp hj
  exact hpe ▸ (jrun_snd_prop b (jwin a.length b.length) (idxs a) [] p hp).1

theorem cols_nodup (a b : List Char) : ((jpairs a b).map Prod.snd).Nodup :=
  jrun_snd_nodup b (jwin a.length b.length) (idxs a) []

/-- The matched-rows list of `(a, b)` is the ascending scan over the matched
columns of `(b, a)`. -/
theorem rows_eq_filter (a b : List Char) :
    (jpairs a b).map Prod.fst =
      (List.range a.length).filter (fun i => ((jpairs b a).map Prod.snd).contains i) := by
  apply sorted_eq_of_mem (rows_sorted a b) ((List.sorted_lt_range a.length).filter _)
  intro i
  simp only [List.mem_filter, List.mem_range, List.contains, List.elem_iff]
  constructor
  · intro h
    exact ⟨rows_lt a b i h, (rows_eq_cols_swap a b i).mp h⟩
  · intro ⟨_, h⟩
    exact (rows_eq_cols_swap a b i).mpr h

theorem jm1_eq_jm2_swap (a b : List Char) : jm1 a b = jm2 b a := by
  unfold jm1 jm2
  have h : (fun p : Nat × Nat => a.getD p.1 ' ') = (fun i => a.getD i ' ') ∘ Prod.fst := by
    funext p; rfl
  rw [h, ← List.map_map, rows_eq_filter a b]

theorem jpairs_length_symm (a b : List Char) :
    (jpairs a b).length = (jpairs b a).length := by
  have h1 : (jpairs a b).length = ((jpairs a b).map Prod.fst).length :=
    (List.length_map _ _).symm
  rw [h1, rows_eq_filter a b,
    length_filter_contains (cols_nodup b a) (cols_lt b a), List.length_map]

theorem countNe_zip_comm : ∀ (xs ys : List Char),
    (xs.zip ys).countP (fun p => p.1 != p.2) = (ys.zip xs).countP (fun p => p.1 != p.2) := by
  intro xs
  induction xs with
  | nil => intro ys; cases ys <;> rfl
  | cons x xs ih =>
    intro ys
    cases ys with
    | nil => rfl
    | cons y ys' =>
      simp only [List.zip_cons_cons, List.countP_cons]
      rw [ih ys']
      have hb : (x != y) = (y != x) := by
        by_cases h : x = y
        · subst h; rfl
        · have h2 : ¬y = x := fun he => h he.symm
          have hx : (x != y) = true := bne_iff_ne.mpr h
          have hy : (y != x) = true := bne_iff_ne.mpr h2
          rw [hx, hy]
      rw [hb]

theorem jt_symm (a b : List Char) : jt a b = jt b a := by
  unfold jt
  rw [jm1_eq_jm2_swap a b, jm1_eq_jm2_swap b a]
  exact countNe_zip_comm _ _

/-- The Jaro similarity of the code is symmetric. -/
theorem jaroQ_symm (s1 s2 : String) : jaroQ s1 s2 = jaroQ s2 s1 := by
  unfold jaroQ
  by_cases h1 : s1 = "" ∨ s2 = ""
  · rw [if_pos h1, if_pos (Or.symm h1)]
  · rw [if_neg h1, if_neg (fun hc => h1 (Or.symm hc))]
    by_cases h2 : s1 = s2
    · rw [if_pos h2, if_pos h2.symm]
    · rw [if_neg h2, if_neg (show ¬(s2 = s1) from fun hc => h2 hc.symm)]
      rw [jpairs_length_symm s1.data s2.data, jt_symm s1.data s2.data]
      by_cases hz : (jpairs s2.data s1.data).length = 0
      · rw [if_pos hz, if_pos hz]
      · rw [if_neg hz, if_neg hz]
        ring

/-!  Character n-gram Jaccard similarity (`_get_ngrams`, `_jaccard_similarity`). -/

/-- The set of overlapping `n`-grams; a string shorter than `n` degenerates
to the singleton containing itself. -/
def getNgrams (s : String) (n : Nat) : Finset String :=
  if s.length < n then {s}
  else ((List.range (s.length - n + 1)).map
    (fun i => String.mk ((s.data.drop i).take n))).toFinset

theorem getNgrams_nonempty (s : String) (n : Nat) (hn : 0 < n) :
    (getNgrams s n).Nonempty := by
  unfold getNgrams
  split
  · exact Finset.singleton_nonempty s
  · next h =>
    rw [List.toFinset_nonempty_iff]
    have : 0 < s.length - n + 1 := by omega
    intro hc
    rw [List.map_eq_nil_iff] at hc
    rw [List.range_eq_nil] at hc
    omega

/-- `_jaccard_similarity` (branch structure as in the code; the first two
branches are reachable only for `n = 0`-style degenerate parameters). -/
def jaccardQ (s1 s2 : String) (n : Nat) : ℚ :=
  if getNgrams s1 n = ∅ ∧ getNgrams s2 n = ∅ then 1
  else if getNgrams s1 n = ∅ ∨ getNgrams s2 n = ∅ then 0
  else if 0 < (getNgrams s1 n ∪ getNgrams s2 n).card then
    ((getNgrams s1 n ∩ getNgrams s2 n).card : ℚ) / ((getNgrams s1 n ∪ getNgrams s2 n).card : ℚ)
  else 0

theorem jaccardQ_symm (a b : String) (n : Nat) : jaccardQ a b n = jaccardQ b a n := by
  unfold jaccardQ
  rw [Finset.inter_comm, Finset.union_comm]
  by_cases h1 : getNgrams a n = ∅ ∧ getNgrams b n = ∅
  · rw [if_pos h1, if_pos (And.symm h1)]
  · rw [if_neg h1, if_neg (fun hc => h1 (And.symm hc))]
    by_cases h2 : getNgrams a n = ∅ ∨ getNgrams b n = ∅
    · rw [if_pos h2, if_pos (Or.symm h2)]
    · rw [if_neg h2, if_neg (fun hc => h2 (Or.symm hc))]

theorem jaccardQ_nonneg (a b : String) (n : Nat) : 0 ≤ jaccardQ a b n := by
  unfold jaccardQ
  split
  · norm_num
  split
  · norm_num
  split
  · positivity
  · norm_num

theorem jaccardQ_le_one (a b : String) (n : Nat) : jaccardQ a b n ≤ 1 := by
  unfold jaccardQ
  split
  · norm_num
  split
  · norm_num
  split
  · next h =>
    have hsub : (getNgrams a n ∩ getNgrams b n).card ≤ (getNgrams a n ∪ getNgrams b n).card :=
      Finset.card_le_card (Finset.inter_subset_union)
    have hpos : (0 : ℚ) < ((getNgrams a n ∪ getNgrams b n).card : ℚ) := by exact_mod_cast h
    rw [div_le_one hpos]
    exact_mod_cast hsub
  · norm_num

theorem jaccardQ_self (a : String) (n : Nat) (hn : 0 < n) : jaccardQ a a n = 1 := by
  unfold jaccardQ
  have hne : getNgrams a n ≠ ∅ := by
    rw [← Finset.nonempty_iff_ne_empty]
    exact getNgrams_nonempty a n hn
  rw [if_neg (fun hc => hne hc.1), if_neg (fun hc => hne (hc.elim id id))]
  rw [Finset.inter_self, Finset.union_self]
  have hpos : 0 < (getNgrams a n).card := Finset.card_pos.mpr (getNgrams_nonempty a n hn)
  rw [if_pos hpos]
  have : ((getNgrams a n).card : ℚ) ≠ 0 := by
    simpa using Nat.pos_iff_ne_zero.mp hpos
  field_simp

/-!  Token-based ratios (`_token_sort_ratio`, `_token_set_ratio`).
`pySplit` is Python's `str.split()`: split on whitespace runs, dropping
empty pieces; `sortTokens` is `sorted(...)` (ascending code-point order). -/

def wordsAux : List Char → List Char → List (List Char)
  | cur, [] => if cur.isEmpty then [] else [cur.reverse]
  | cur, c :: cs =>
    if c.isWhitespace then
      if cur.isEmpty then wordsAux [] cs else cur.reverse :: wordsAux [] cs
    else wordsAux (c :: cur) cs

def pySplit (s : String) : List String := (wordsAux [] s.data).map String.mk

def sortTokens (l : List String) : List String := List.insertionSort (· ≤ ·) l

def joinTokens : List String → String
  | [] => ""
  | [w] => w
  | w :: ws => w ++ " " ++ joinTokens ws

/-- `_token_sort_ratio`. -/
def tokenSortQ (s1 s2 : String) : ℚ :=
  levRatioQ (joinTokens (sortTokens (pySplit s1))) (joinTokens (sortTokens (pySplit s2)))

theorem tokenSortQ_symm (a b : String) : tokenSortQ a b = tokenSortQ b a :=
  levRatioQ_symm _ _

theorem tokenSortQ_nonneg (a b : String) : 0 ≤ tokenSortQ a b := levRatioQ_nonneg _ _

theorem tokenSortQ_le_one (a b : String) : tokenSortQ a b ≤ 1 := levRatioQ_le_one _ _

theorem tokenSortQ_self (a : String) : tokenSortQ a a = 1 := levRatioQ_self _

/-- The token set of a string (`set(s.split())`), as a deduplicated list. -/
def tokSet (s : String) : List String := (pySplit s).dedup

/-- `_token_set_ratio`. -/
def tokenSetQ (s1 s2 : String) : ℚ :=
  if tokSet s1 = [] ∧ tokSet s2 = [] then 1
  else
    max (levRatioQ (joinTokens (sortTokens ((tokSet s1).filter (· ∈ tokSet s2))))
          (joinTokens (sortTokens (tokSet s1))))
      (max (levRatioQ (joinTokens (sortTokens ((tokSet s1).filter (· ∈ tokSet s2))))
            (joinTokens (sortTokens (tokSet s2))))
        (levRatioQ (joinTokens (sortTokens (tokSet s1))) (joinTokens (sortTokens (tokSet s2)))))

theorem sortTokens_eq_of_perm {l1 l2 : List String} (h : l1.Perm l2) :
    sortTokens l1 = sortTokens l2 := by
  unfold sortTokens
  exact List.eq_of_perm_of_sorted (r := (· ≤ ·))
    (((List.perm_insertionSort _ l1).trans h).trans (List.perm_insertionSort _ l2).symm)
    (List.sorted_insertionSort _ l1) (List.sorted_insertionSort _ l2)

theorem tokSet_nodup (s : String) : (tokSet s).Nodup := List.nodup_dedup _

theorem inter_perm (a b : String) :
    ((tokSet a).filter (· ∈ tokSet b)).Perm ((tokSet b).filter (· ∈ tokSet a)) := by
  rw [List.perm_ext_iff_of_nodup ((tokSet_nodup a).filter _) ((tokSet_nodup b).filter _)]
  intro x
  simp only [List.mem_filter, decide_eq_true_eq]
  exact ⟨fun h => ⟨h.2, h.1⟩, fun h => ⟨h.2, h.1⟩⟩

theorem tokenSetQ_symm (a b : String) : tokenSetQ a b = tokenSetQ b a := by
  unfold tokenSetQ
  by_cases h1 : tokSet a = [] ∧ tokSet b = []
  · rw [if_pos h1, if_pos (And.symm h1)]
  · rw [if_neg h1, if_neg (fun hc => h1 (And.symm hc))]
    rw [sortTokens_eq_of_perm (inter_perm a b)]
    rw [levRatioQ_symm (joinTokens (sortTokens (tokSet a))) (joinTokens (sortTokens (tokSet b)))]
    rw [max_left_comm]

theorem tokenSetQ_nonneg (a b : String) : 0 ≤ tokenSetQ a b := by
  unfold tokenSetQ
  split
  · norm_num
  · exact le_trans (levRatioQ_nonneg _ _) (le_max_left _ _)

theorem tokenSetQ_le_one (a b : String) : tokenSetQ a b ≤ 1 := by
  unfold tokenSetQ
  split
  · norm_num
  · exact max_le (levRatioQ_le_one _ _) (max_le (levRatioQ_le_one _ _) (levRatioQ_le_one _ _))

theorem tokenSetQ_self (a : String) : tokenSetQ a a = 1 := by
  unfold tokenSetQ
  split
  · rfl
  · apply le_antisymm
    · exact max_le (levRatioQ_le_one _ _) (max_le (levRatioQ_le_one _ _) (levRatioQ_le_one _ _))
    · exact le_trans (le_of_eq (levRatioQ_self _).symm)
        (le_trans (le_max_right _ _) (le_max_right _ _))

/-!  `difflib.SequenceMatcher(None, a, b).ratio()`, the sixth score.
Embedded without junk handling: with no junk set the two junk-extension
loops of `find_longest_match` are no-ops, and autojunk only triggers for
`len(b) >= 200`, far beyond every string this code compares. -/

/-- `find_longest_match` over the whole strings: the classic `j2len`
dynamic program, ties broken by earliest `i`, then earliest `j` (strict
`>` update, scanning `i` then `j` ascending). -/
def flm (a b : List Char) : Nat × Nat × Nat :=
  (a.enum.foldl
    (fun (acc : List (Nat × Nat) × (Nat × Nat × Nat)) ic =>
      b.enum.foldl
        (fun (acc2 : List (Nat × Nat) × (Nat × Nat × Nat)) jc =>
          if jc.2 = ic.2 then
            let k := (if jc.1 = 0 then 0 else ((acc.1.lookup (jc.1 - 1)).getD 0)) + 1
            ((jc.1, k) :: acc2.1,
              if k > acc2.2.2.2 then (ic.1 + 1 - k, jc.1 + 1 - k, k) else acc2.2)
          else acc2)
        ([], acc.2))
    ([], (0, 0, 0))).2

/-- Total size of all matching blocks (`get_matching_blocks` summed): the
Ratcliff-Obershelp recursion around the longest match.  `fuel` bounds the
recursion depth; `|a| + |b|` always suffices since every recursive call
strictly shrinks its slice. -/
def matchTotalF : Nat → List Char → List Char → Nat
  | 0, _, _ => 0
  | fuel + 1, a, b =>
    if a = [] ∨ b = [] then 0
    else
      if (flm a b).2.2 = 0 then 0
      else
        matchTotalF fuel (a.take (flm a b).1) (b.take (flm a b).2.1) + (flm a b).2.2 +
          matchTotalF fuel (a.drop ((flm a b).1 + (flm a b).2.2))
            (b.drop ((flm a b).2.1 + (flm a b).2.2))

/-- `ratio() = 2*M / (len(a)+len(b))`; `1.0` when both strings are empty. -/
def seqRatioQ (s1 s2 : String) : ℚ :=
  if s1.length + s2.length = 0 then 1
  else 2 * (matchTotalF (s1.length + s2.length) s1.data s2.data : ℚ)
    / ((s1.length + s2.length : ℕ) : ℚ)

/-- `calculate_similarity`: returns 1.0 for raw or normalized equality,
0.0 when either input is falsy, otherwise the weighted sum of the six
scores (weights `[0.20, 0.10, 0.10, 0.30, 0.25, 0.05]`), clamped to
`[0, 1]`. -/
def calculateSimilarity (s1 s2 : String) : ℚ :=
  if s1 = "" ∨ s2 = "" then 0
  else if s1 = s2 then 1
  else if normalizeText s1 = normalizeText s2 then 1
  else
    min 1 (max 0
      (levRatioQ (normalizeText s1) (normalizeText s2) * (20/100)
        + jaroQ (normalizeText s1) (normalizeText s2) * (10/100)
        + jaccardQ (normalizeText s1) (normalizeText s2) 2 * (10/100)
        + tokenSortQ (normalizeText s1) (normalizeText s2) * (30/100)
        + tokenSetQ (normalizeText s1) (normalizeText s2) * (25/100)
        + seqRatioQ (normalizeText s1) (normalizeText s2) * (5/100)))

theorem calcSim_nonneg (a b : String) : 0 ≤ calculateSimilarity a b := by
  unfold calculateSimilarity
  split
  · norm_num
  split
  · norm_num
  split
  · norm_num
  · exact le_min (by norm_num) (le_max_left _ _)

theorem calcSim_le_one (a b : String) : calculateSimilarity a b ≤ 1 := by
  unfold calculateSimilarity
  split
  · norm_num
  split
  · norm_num
  split
  · norm_num
  · exact min_le_left _ _

theorem calcSim_empty_left (b : String) : calculateSimilarity "" b = 0 := by
  unfold calculateSimilarity
  rw [if_pos (Or.inl rfl)]

theorem calcSim_empty_right (a : String) : calculateSimilarity a "" = 0 := by
  unfold calculateSimilarity
  rw [if_pos (Or.inr rfl)]

theorem calcSim_of_norm_eq {a b : String} (ha : a ≠ "") (hb : b ≠ "")
    (h : normalizeText a = normalizeText b) : calculateSimilarity a b = 1 := by
  unfold calculateSimilarity
  rw [if_neg (by simp [ha, hb])]
  by_cases he : a = b
  · rw [if_pos he]
  · rw [if_neg he, if_pos h]

/-!  `find_best_match`: running maximum with strict improvement and the
threshold gate; empty query, empty candidate list, or a falsy best
candidate yield `None`. -/

/-- One step of the candidate loop. -/
def fbmStep (q : String) (th : ℚ) (acc : Option String × ℚ) (c : String) :
    Option String × ℚ :=
  if calculateSimilarity q c > acc.2 ∧ calculateSimilarity q c ≥ th
  then (some c, calculateSimilarity q c) else acc

/-- `find_best_match`. -/
def findBestMatch (th : ℚ) (query : String) (cands : List String) :
    Option (String × ℚ) :=
  if query = "" ∨ cands = [] then none
  else
    match cands.foldl (fbmStep query th) ((none : Option String), (0 : ℚ)) with
    | (some m, s) => if m = "" then none else some (m, s)
    | (none, _) => none

theorem fbm_fold_mono (q : String) (th : ℚ) :
    ∀ (l : List String) (acc : Option String × ℚ),
      acc.2 ≤ (l.foldl (fbmStep q th) acc).2 := by
  intro l
  induction l with
  | nil => intro acc; simp
  | cons c rest ih =>
    intro acc
    simp only [List.foldl_cons]
    refine le_trans ?_ (ih (fbmStep q th acc c))
    unfold fbmStep
    split
    · next h => exact le_of_lt h.1
    · exact le_rfl

theorem fbm_fold_ub (q : String) (th : ℚ) :
    ∀ (l : List String) (acc : Option String × ℚ),
      ∀ c ∈ l, th ≤ calculateSimilarity q c →
        calculateSimilarity q c ≤ (l.foldl (fbmStep q th) acc).2 := by
  intro l
  induction l with
  | nil => intro acc c hc; simp at hc
  | cons c0 rest ih =>
    intro acc c hc hth
    rcases List.mem_cons.mp hc with he | hm
    · subst he
      simp only [List.foldl_cons]
      refine le_trans ?_ (fbm_fold_mono q th rest (fbmStep q th acc c))
      unfold fbmStep
      split
      · exact le_rfl
      · next h =>
        push_neg at h
        exact le_of_not_lt (fun hgt => absurd hth (not_le.mpr (by linarith [h hgt])))
    · simp only [List.foldl_cons]
      exact ih (fbmStep q th acc c0) c hm hth

/-- Full characterization of the candidate fold: either nothing improved on
the accumulator, or the result is the first candidate attaining the final
(maximal) score, with every earlier candidate scoring strictly less. -/
theorem fbm_fold_char (q : String) (th : ℚ) :
    ∀ (l : List String) (bm : Option String) (bs : ℚ),
      (l.foldl (fbmStep q th) (bm, bs) = (bm, bs) ∧
        ∀ c ∈ l, ¬(calculateSimilarity q c > bs ∧ calculateSimilarity q c ≥ th))
      ∨ (∃ i : Fin l.length,
          (l.foldl (fbmStep q th) (bm, bs)).1 = some (l.get i) ∧
          (l.foldl (fbmStep q th) (bm, bs)).2 = calculateSimilarity q (l.get i) ∧
          calculateSimilarity q (l.get i) ≥ th ∧
          calculateSimilarity q (l.get i) > bs ∧
          ∀ j : Fin l.length, j.val < i.val →
            calculateSimilarity q (l.get j) < calculateSimilarity q (l.get i)) := by
  intro l
  induction l with
  | nil => intro bm bs; left; exact ⟨rfl, by simp⟩
  | cons c0 rest ih =>
    intro bm bs
    by_cases hq : calculateSimilarity q c0 > bs ∧ calculateSimilarity q c0 ≥ th
    · have hstep : fbmStep q th (bm, bs) c0 = (some c0, calculateSimilarity q c0) := by
        unfold fbmStep; rw [if_pos hq]
      rcases ih (some c0) (calculateSimilarity q c0) with ⟨hfix, hall⟩ | ⟨i, h1, h2, h3, h4, h5⟩
      · right
        refine ⟨⟨0, by simp⟩, ?_, ?_, hq.2, hq.1, ?_⟩
        · simp only [List.foldl_cons, hstep, hfix, List.get]
        · simp only [List.foldl_cons, hstep, hfix, List.get]
        · intro j hj
          simp at hj
      · right
        refine ⟨⟨i.val + 1, by simpa using i.isLt⟩, ?_, ?_, ?_, ?_, ?_⟩
        · simpa only [List.foldl_cons, hstep, List.get] using h1
        · simpa only [List.foldl_cons, hstep, List.get] using h2
        · exact h3
        · exact lt_trans hq.1 h4
        · intro j hj
          match j with
          | ⟨0, hj0⟩ =>
            simpa only [List.get] using h4
          | ⟨jv + 1, hjv⟩ =>
            have : jv < i.val := by simpa using hj
            simpa only [List.get] using h5 ⟨jv, by simpa using hjv⟩ this
    · have hstep : fbmStep q th (bm, bs) c0 = (bm, bs) := by
        unfold fbmStep; rw [if_neg hq]
      rcases ih bm bs with ⟨hfix, hall⟩ | ⟨i, h1, h2, h3, h4, h5⟩
      · left
        constructor
        · simp only [List.foldl_cons, hstep, hfix]
        · intro c hc
          rcases List.mem_cons.mp hc with he | hm
          · exact he ▸ hq
          · exact hall c hm
      · right
        refine ⟨⟨i.val + 1, by simpa using i.isLt⟩, ?_, ?_, ?_, ?_, ?_⟩
        · simpa only [List.foldl_cons, hstep, List.get] using h1
        · simpa only [List.foldl_cons, hstep, List.get] using h2
        · exact h3
        · exact h4
        · intro j hj
          match j with
          | ⟨0, hj0⟩ =>
            simp only [List.get]
            push_neg at hq
            by_cases hc0 : calculateSimilarity q c0 > bs
            · have := hq hc0
              linarith
            · push_neg at hc0
              exact lt_of_le_of_lt hc0 h4
          | ⟨jv + 1, hjv⟩ =>
            have : jv < i.val := by simpa using hj
            simpa only [List.get] using h5 ⟨jv, by simpa using hjv⟩ this

/-!  The standardizer (`PurePythonTeamStandardizer`).  The Python dict
`_sport_teams_cache` is an association list in insertion order (dict keys
preserve insertion order and are unique); `teams_map` is the registry,
`new_teams_added` the session log. -/

structure Team where
  sport : String
  canonical_team_name : String
deriving DecidableEq, Repr

def dictGet : List (String × List String) → String → Option (List String)
  | [], _ => none
  | (k, v) :: rest, key => if k = key then some v else dictGet rest key

/-- `cache[key].append(name)`, creating `cache[key] = [name]` (at the end,
as a Python dict does) when the key is absent. -/
def dictAppend : List (String × List String) → String → String → List (String × List String)
  | [], key, name => [(key, [name])]
  | (k, v) :: rest, key, name =>
    if k = key then (k, v ++ [name]) :: rest
    else (k, v) :: dictAppend rest key name

/-- One step of `_build_cache`: cache an entry when both its lowercased
sport and its name are truthy. -/
def cacheStep (cache : List (String × List String)) (t : Team) : List (String × List String) :=
  if pyLower t.sport ≠ "" ∧ t.canonical_team_name ≠ "" then
    dictAppend cache (pyLower t.sport) t.canonical_team_name
  else cache

/-- `_build_cache`. -/
def buildCache (teams : List Team) : List (String × List String) :=
  teams.foldl cacheStep []

structure StdState where
  teams_map : List Team
  threshold : ℚ
  auto_add_threshold : ℚ
  cache : List (String × List String)
  new_teams_added : List Team
deriving DecidableEq, Repr

/-- `__init__`: store the thresholds unvalidated, build the cache, start an
empty session log. -/
def mkStandardizer (teams : List Team) (th aath : ℚ) : StdState :=
  ⟨teams, th, aath, buildCache teams, []⟩

/-- The `details` dict of `standardize_team_name` (absent keys are `none`). -/
structure MatchDetails where
  status : String
  score : Option ℚ := none
  matched_name : Option String := none
  best_existing_score : Option ℚ := none
  best_existing_team : Option String := none
  auto_add_threshold : Option ℚ := none
deriving DecidableEq, Repr

/-- The best-existing scan of the no-match branch: plain running maximum
(no threshold), before deciding whether to auto-add. -/
def bestExisting (name : String) (cands : List String) : ℚ × Option String :=
  cands.foldl
    (fun (acc : ℚ × Option String) c =>
      if calculateSimilarity name c > acc.1 then (calculateSimilarity name c, some c) else acc)
    (0, none)

/-- `standardize_team_name` (always returning the details; the code's
`return_details` flag only controls whether the caller sees them). -/
def standardize (st : StdState) (team_name sport : String) (autoAdd : Bool) :
    String × MatchDetails × StdState :=
  if pyStrip team_name = "" then ("", { status := "empty" }, st)
  else
    match ((dictGet st.cache (pyLower sport)).getD []).find?
        (fun c => pyLower c = pyLower (pyStrip team_name)) with
    | some c => (c, { status := "exact_match", score := some 1 }, st)
    | none =>
      match findBestMatch st.threshold (pyStrip team_name)
          ((dictGet st.cache (pyLower sport)).getD []) with
      | some (m, s) => (m, { status := "fuzzy_match", score := some s, matched_name := some m }, st)
      | none =>
        if autoAdd ∧ (bestExisting (pyStrip team_name)
            ((dictGet st.cache (pyLower sport)).getD [])).1 < st.auto_add_threshold then
          (pyStrip team_name,
            { status := "auto_added",
              best_existing_score := some (bestExisting (pyStrip team_name)
                ((dictGet st.cache (pyLower sport)).getD [])).1,
              best_existing_team := (bestExisting (pyStrip team_name)
                ((dictGet st.cache (pyLower sport)).getD [])).2 },
            { st with
              teams_map := st.teams_map ++ [⟨pyLower sport, pyStrip team_name⟩],
              cache := dictAppend st.cache (pyLower sport) (pyStrip team_name),
              new_teams_added := st.new_teams_added ++ [⟨pyLower sport, pyStrip team_name⟩] })
        else
          (pyStrip team_name,
            { status := "no_match_no_add",
              best_existing_score := some (bestExisting (pyStrip team_name)
                ((dictGet st.cache (pyLower sport)).getD [])).1,
              best_existing_team := (bestExisting (pyStrip team_name)
                ((dictGet st.cache (pyLower sport)).getD [])).2,
              auto_add_threshold := some st.auto_add_threshold }, st)

/-- A sequence of `standardize_team_name` calls, threading the state. -/
def runCalls (st : StdState) : List (String × String × Bool) → StdState
  | [] => st
  | (nm, sp, aa) :: rest => runCalls (standardize st nm sp aa).2.2 rest

/-!  `process_api_response`.  JSON-like documents are objects (ordered
key/value association lists, as Python dicts), arrays, strings, numbers,
booleans and null.  The traversal is depth-first pre-order: each object
first resolves its category, rewrites its recognized team-name fields and
attaches the `*_standardization` metadata, then recurses into all of its
values (including the just-attached metadata, which contains no team
fields and is therefore left unchanged).  `fuel` bounds recursion depth;
the recursion consumes one unit of fuel per value visited and per list
position passed, and the top-level call supplies `30 * pySize doc + 30`,
which dominates the recursion depth of any document even after each object
gains its (fixed-size) `*_standardization` metadata siblings, so the fuel
never runs out. -/

inductive PyVal where
  | str (s : String)
  | num (q : ℚ)
  | boolean (b : Bool)
  | null
  | obj (fields : List (String × PyVal))
  | arr (items : List PyVal)
deriving Repr

def objGet : List (String × PyVal) → String → Option PyVal
  | [], _ => none
  | (k, v) :: rest, key => if k = key then some v else objGet rest key

/-- Python dict assignment: update in place, or append a new key at the end. -/
def objSet : List (String × PyVal) → String → PyVal → List (String × PyVal)
  | [], key, v => [(key, v)]
  | (k, w) :: rest, key, v =>
    if k = key then (k, v) :: rest else (k, w) :: objSet rest key v

/-- `sport_override or obj.get('sport', obj.get('sport_key',
obj.get('category', 'unknown')))` with no override; a non-string category
value would crash the Python code (`sport.lower()`), so only string values
are meaningful here. -/
def sportOf (fields : List (String × PyVal)) : String :=
  match (objGet fields "sport").getD
      ((objGet fields "sport_key").getD ((objGet fields "category").getD (.str "unknown"))) with
  | .str s => s
  | _ => "unknown"

def teamFields : List String := ["home_team", "away_team", "team_name", "team", "participant"]

/-- The `details` record rendered back to the dict the Python code builds. -/
def detailsObj (d : MatchDetails) : PyVal :=
  .obj ([("status", .str d.status)]
    ++ (match d.score with | some q => [("score", .num q)] | none => [])
    ++ (match d.matched_name with | some m => [("matched_name", .str m)] | none => [])
    ++ (if d.status = "auto_added" ∨ d.status = "no_match_no_add" then
          [("best_existing_score",
             match d.best_existing_score with | some q => PyVal.num q | none => PyVal.null),
           ("best_existing_team",
             match d.best_existing_team with | some t => PyVal.str t | none => PyVal.null)]
        else [])
    ++ (match d.auto_add_threshold with | some q => [("auto_add_threshold", .num q)] | none => []))

def metaObj (original standardized : String) (d : MatchDetails) : PyVal :=
  .obj [("original", .str original), ("standardized", .str standardized),
        ("details", detailsObj d)]

/-- Handle one recognized team-name field: standardize (with the default
`auto_add=True`), rewrite the field when the result differs, flag the
change, attach the metadata sibling and count the field.  Only truthy
string values reach `standardize_team_name` (a truthy non-string would
raise in the Python code). -/
def teamFieldStep (sportField : String)
    (acc : List (String × PyVal) × StdState × Bool × Nat) (f : String) :
    List (String × PyVal) × StdState × Bool × Nat :=
  match objGet acc.1 f with
  | some (.str s) =>
    if s = "" then acc
    else
      let r := standardize acc.2.1 s sportField true
      let fields1 := if r.1 ≠ s then objSet acc.1 f (.str r.1) else acc.1
      ((objSet fields1 (f ++ "_standardization") (metaObj s r.1 r.2.1)),
        r.2.2, (if r.1 ≠ s then true else acc.2.2.1), acc.2.2.2 + 1)
  | _ => acc

mutual

def processVal : Nat → StdState → Bool → Nat → PyVal → PyVal × StdState × Bool × Nat
  | 0, st, ch, tp, v => (v, st, ch, tp)
  | fuel + 1, st, ch, tp, .obj fields =>
    match teamFields.foldl (teamFieldStep (sportOf fields)) (fields, st, ch, tp) with
    | (fields1, st1, ch1, tp1) =>
      match processFields fuel st1 ch1 tp1 fields1 with
      | (fields2, st2, ch2, tp2) => (.obj fields2, st2, ch2, tp2)
  | fuel + 1, st, ch, tp, .arr items =>
    match processItems fuel st ch tp items with
    | (items2, st2, ch2, tp2) => (.arr items2, st2, ch2, tp2)
  | _ + 1, st, ch, tp, v => (v, st, ch, tp)
termination_by structural fuel st ch tp v => fuel

def processFields : Nat → StdState → Bool → Nat → List (String × PyVal) →
    List (String × PyVal) × StdState × Bool × Nat
  | _, st, ch, tp, [] => ([], st, ch, tp)
  | 0, st, ch, tp, l => (l, st, ch, tp)
  | fuel + 1, st, ch, tp, (k, v) :: rest =>
    match processVal fuel st ch tp v with
    | (v2, st2, ch2, tp2) =>
      match processFields fuel st2 ch2 tp2 rest with
      | (rest2, st3, ch3, tp3) => ((k, v2) :: rest2, st3, ch3, tp3)
termination_by structural fuel st ch tp l => fuel

def processItems : Nat → StdState → Bool → Nat → List PyVal →
    List PyVal × StdState × Bool × Nat
  | _, st, ch, tp, [] => ([], st, ch, tp)
  | 0, st, ch, tp, l => (l, st, ch, tp)
  | fuel + 1, st, ch, tp, v :: rest =>
    match processVal fuel st ch tp v with
    | (v2, st2, ch2, tp2) =>
      match processItems fuel st2 ch2 tp2 rest with
      | (rest2, st3, ch3, tp3) => (v2 :: rest2, st3, ch3, tp3)
termination_by structural fuel st ch tp l => fuel

end

mutual

def pySize : PyVal → Nat
  | .obj fs => 1 + pySizeFields fs
  | .arr l => 1 + pySizeItems l
  | _ => 1

def pySizeFields : List (String × PyVal) → Nat
  | [] => 0
  | (_, v) :: rest => pySize v + pySizeFields rest + 1

def pySizeItems : List PyVal → Nat
  | [] => 0
  | v :: rest => pySize v + pySizeItems rest + 1

end

/-- `process_api_response` (deep copy is implicit in the functional model;
persistence is external and not modelled — `auto_save_performed` reports
what the flag would have been). -/
def processAPI (st : StdState) (doc : PyVal) (autoSave : Bool) : PyVal × StdState :=
  match processVal (30 * pySize doc + 30) st false 0 doc with
  | (v, st2, ch, tp) =>
    match v with
    | .obj fields =>
      (.obj (objSet fields "_processing_summary" (.obj
        [("teams_processed", .num tp),
         ("changes_made", .boolean ch),
         ("new_teams_added", .num st2.new_teams_added.length),
         ("auto_save_performed",
           .boolean (autoSave && (ch || !st2.new_teams_added.isEmpty)))])), st2)
    | _ => (v, st2)

/-- Projections used to state concrete facts about processed documents. -/
def getStrField (v : PyVal) (k : String) : Option String :=
  match v with
  | .obj fs =>
    match objGet fs k with
    | some (.str s) => some s
    | _ => none
  | _ => none

def getNumField (v : PyVal) (k1 k2 : String) : Option ℚ :=
  match v with
  | .obj fs =>
    match objGet fs k1 with
    | some (.obj fs2) =>
      match objGet fs2 k2 with
      | some (.num q) => some q
      | _ => none
    | _ => none
  | _ => none

def getBoolField (v : PyVal) (k1 k2 : String) : Option Bool :=
  match v with
  | .obj fs =>
    match objGet fs k1 with
    | some (.obj fs2) =>
      match objGet fs2 k2 with
      | some (.boolean b) => some b
      | _ => none
    | _ => none
  | _ => none

/-- Evaluate `calculate_similarity` from the values of its six component
scores (the weighted-sum branch). -/
theorem calcSim_eval (s1 s2 : String) (v1 v2 v3 v4 v5 v6 : ℚ)
    (h0 : ¬(s1 = "" ∨ s2 = "")) (hne : ¬(s1 = s2))
    (hnm : ¬(normalizeText s1 = normalizeText s2))
    (h1 : levRatioQ (normalizeText s1) (normalizeText s2) = v1)
    (h2 : jaroQ (normalizeText s1) (normalizeText s2) = v2)
    (h3 : jaccardQ (normalizeText s1) (normalizeText s2) 2 = v3)
    (h4 : tokenSortQ (normalizeText s1) (normalizeText s2) = v4)
    (h5 : tokenSetQ (normalizeText s1) (normalizeText s2) = v5)
    (h6 : seqRatioQ (normalizeText s1) (normalizeText s2) = v6) :
    calculateSimilarity s1 s2 =
      min 1 (max 0 (v1 * (20/100) + v2 * (10/100) + v3 * (10/100)
        + v4 * (30/100) + v5 * (25/100) + v6 * (5/100))) := by
  unfold calculateSimilarity
  rw [if_neg h0, if_neg hne, if_neg hnm, h1, h2, h3, h4, h5, h6]

set_option maxRecDepth 100000 in
theorem simValZK : calculateSimilarity "Zalgiris Kaunas" "Kauno Zalgiris" = 4063189/6211800 := by
  rw [calcSim_eval "Zalgiris Kaunas" "Kauno Zalgiris"
    (2/15) (811/1260) (10/17) (13/15) (13/15) (16/29)
    (by decide) (by decide) (by with_unfolding_all decide)
    (by with_unfolding_all decide) (by with_unfolding_all decide)
    (by with_unfolding_all decide) (by with_unfolding_all decide)
    (by with_unfolding_all decide) (by with_unfolding_all decide)]
  norm_num

set_option maxRecDepth 100000 in
theorem simValBK : calculateSimilarity "Brand New FC" "Kauno Zalgiris" = 2363/14490 := by
  rw [calcSim_eval "Brand New FC" "Kauno Zalgiris"
    (1/7) (65/126) (0) (1/7) (1/7) (2/23)
    (by decide) (by decide) (by with_unfolding_all decide)
    (by with_unfolding_all decide) (by with_unfolding_all decide)
    (by with_unfolding_all decide) (by with_unfolding_all decide)
    (by with_unfolding_all decide) (by with_unfolding_all decide)]
  norm_num

set_option maxRecDepth 100000 in
theorem simValBZ : calculateSimilarity "Brand New FC" "Zalgiris Kaunas" = 1741/10800 := by
  rw [calcSim_eval "Brand New FC" "Zalgiris Kaunas"
    (2/15) (263/540) (0) (2/15) (2/15) (1/4)
    (by decide) (by decide) (by with_unfolding_all decide)
    (by with_unfolding_all decide) (by with_unfolding_all decide)
    (by with_unfolding_all decide) (by with_unfolding_all decide)
    (by with_unfolding_all decide) (by with_unfolding_all decide)]
  norm_num

set_option maxRecDepth 100000 in
theorem simValZgK : calculateSimilarity "Zalgiris" "Kauno Zalgiris" = 169963/240240 := by
  rw [calcSim_eval "Zalgiris" "Kauno Zalgiris"
    (4/7) (137/168) (7/13) (4/7) (1) (8/11)
    (by decide) (by decide) (by with_unfolding_all decide)
    (by with_unfolding_all decide) (by with_unfolding_all decide)
    (by with_unfolding_all decide) (by with_unfolding_all decide)
    (by with_unfolding_all decide) (by with_unfolding_all decide)]
  norm_num

/-- `standardize_team_name`, blank-input branch. -/
theorem standardize_empty (st : StdState) (name sport : String) (aa : Bool)
    (h : pyStrip name = "") :
    standardize st name sport aa = ("", { status := "empty" }, st) := by
  unfold standardize
  rw [if_pos h]

/-- `standardize_team_name`, exact-match branch. -/
theorem standardize_exact (st : StdState) (name sport nm : String) (aa : Bool)
    (cands : List String) (c : String)
    (hnm : pyStrip name = nm) (h0 : ¬(nm = ""))
    (hc : (dictGet st.cache (pyLower sport)).getD [] = cands)
    (hfind : cands.find? (fun c => pyLower c = pyLower nm) = some c) :
    standardize st name sport aa = (c, { status := "exact_match", score := some 1 }, st) := by
  subst hnm
  unfold standardize
  rw [if_neg h0, hc, hfind]

/-- `standardize_team_name`, fuzzy-match branch. -/
theorem standardize_fuzzy (st : StdState) (name sport nm : String) (aa : Bool)
    (cands : List String) (m : String) (s : ℚ)
    (hnm : pyStrip name = nm) (h0 : ¬(nm = ""))
    (hc : (dictGet st.cache (pyLower sport)).getD [] = cands)
    (hfind : cands.find? (fun c => pyLower c = pyLower nm) = none)
    (hbm : findBestMatch st.threshold nm cands = some (m, s)) :
    standardize st name sport aa =
      (m, { status := "fuzzy_match", score := some s, matched_name := some m }, st) := by
  subst hnm
  unfold standardize
  rw [if_neg h0, hc, hfind, hbm]

/-- `standardize_team_name`, auto-add branch. -/
theorem standardize_auto (st : StdState) (name sport nm : String)
    (cands : List String)
    (hnm : pyStrip name = nm) (h0 : ¬(nm = ""))
    (hc : (dictGet st.cache (pyLower sport)).getD [] = cands)
    (hfind : cands.find? (fun c => pyLower c = pyLower nm) = none)
    (hbm : findBestMatch st.threshold nm cands = none)
    (hlt : (bestExisting nm cands).1 < st.auto_add_threshold) :
    standardize st name sport true =
      (nm,
       { status := "auto_added",
         best_existing_score := some (bestExisting nm cands).1,
         best_existing_team := (bestExisting nm cands).2 },
       { st with
         teams_map := st.teams_map ++ [⟨pyLower sport, nm⟩],
         cache := dictAppend st.cache (pyLower sport) nm,
         new_teams_added := st.new_teams_added ++ [⟨pyLower sport, nm⟩] }) := by
  subst hnm
  unfold standardize
  rw [if_neg h0, hc, hfind, hbm, if_pos ⟨rfl, hlt⟩]

/-- `standardize_team_name`, no-match-no-add branch. -/
theorem standardize_noadd (st : StdState) (name sport nm : String) (aa : Bool)
    (cands : List String)
    (hnm : pyStrip name = nm) (h0 : ¬(nm = ""))
    (hc : (dictGet st.cache (pyLower sport)).getD [] = cands)
    (hfind : cands.find? (fun c => pyLower c = pyLower nm) = none)
    (hbm : findBestMatch st.threshold nm cands = none)
    (hge : ¬(aa = true ∧ (bestExisting nm cands).1 < st.auto_add_threshold)) :
    standardize st name sport aa =
      (nm,
       { status := "no_match_no_add",
         best_existing_score := some (bestExisting nm cands).1,
         best_existing_team := (bestExisting nm cands).2,
         auto_add_threshold := some st.auto_add_threshold }, st) := by
  subst hnm
  unfold standardize
  rw [if_neg h0, hc, hfind, hbm, if_neg hge]

/-- `find_best_match` on an empty candidate list. -/
theorem findBestMatch_nil (th : ℚ) (q : String) : findBestMatch th q [] = none := by
  unfold findBestMatch
  rw [if_pos (Or.inr rfl)]

/-!  The bulk-process scenario of the spec: registry with the single
basketball entry "Kauno Zalgiris", document carrying a `home_team` and an
`away_team`. -/

def st5 : StdState := mkStandardizer [⟨"basketball", "Kauno Zalgiris"⟩] (3/4) (7/10)

/-- State after the `home_team` call auto-adds "Zalgiris Kaunas". -/
def st5b : StdState :=
  ⟨[⟨"basketball", "Kauno Zalgiris"⟩, ⟨"basketball", "Zalgiris Kaunas"⟩], 3/4, 7/10,
   [("basketball", ["Kauno Zalgiris", "Zalgiris Kaunas"])],
   [⟨"basketball", "Zalgiris Kaunas"⟩]⟩

/-- State after the `away_team` call also auto-adds "Brand New FC". -/
def st5c : StdState :=
  ⟨[⟨"basketball", "Kauno Zalgiris"⟩, ⟨"basketball", "Zalgiris Kaunas"⟩,
    ⟨"basketball", "Brand New FC"⟩], 3/4, 7/10,
   [("basketball", ["Kauno Zalgiris", "Zalgiris Kaunas", "Brand New FC"])],
   [⟨"basketball", "Zalgiris Kaunas"⟩, ⟨"basketball", "Brand New FC"⟩]⟩

theorem fbm5_home : findBestMatch (3/4) "Zalgiris Kaunas" ["Kauno Zalgiris"] = none := by
  unfold findBestMatch
  rw [if_neg (by decide)]
  have hf : ["Kauno Zalgiris"].foldl (fbmStep "Zalgiris Kaunas" (3/4))
      ((none : Option String), (0 : ℚ)) = (none, 0) := by
    simp only [List.foldl]
    unfold fbmStep
    rw [simValZK]
    rw [if_neg (by norm_num)]
  rw [hf]

theorem be5_home : bestExisting "Zalgiris Kaunas" ["Kauno Zalgiris"]
    = (4063189/6211800, some "Kauno Zalgiris") := by
  unfold bestExisting
  simp only [List.foldl]
  rw [simValZK]
  rw [if_pos (by norm_num)]

set_option maxRecDepth 8000 in
theorem std5_home : standardize st5 "Zalgiris Kaunas" "basketball" true =
    ("Zalgiris Kaunas",
     { status := "auto_added", best_existing_score := some (4063189/6211800),
       best_existing_team := some "Kauno Zalgiris" }, st5b) := by
  rw [standardize_auto st5 "Zalgiris Kaunas" "basketball" "Zalgiris Kaunas"
    ["Kauno Zalgiris"] rfl (by decide) (by decide) (by decide) fbm5_home
    (by rw [be5_home]; show (4063189/6211800 : ℚ) < 7/10; norm_num)]
  rw [be5_home]
  with_unfolding_all rfl

theorem fbm5_away : findBestMatch (3/4) "Brand New FC"
    ["Kauno Zalgiris", "Zalgiris Kaunas"] = none := by
  unfold findBestMatch
  rw [if_neg (by decide)]
  have h1 : fbmStep "Brand New FC" (3/4) ((none : Option String), (0 : ℚ)) "Kauno Zalgiris"
      = (none, 0) := by
    unfold fbmStep
    rw [simValBK]
    rw [if_neg (by norm_num)]
  have h2 : fbmStep "Brand New FC" (3/4) ((none : Option String), (0 : ℚ)) "Zalgiris Kaunas"
      = (none, 0) := by
    unfold fbmStep
    rw [simValBZ]
    rw [if_neg (by norm_num)]
  simp only [List.foldl]
  rw [h1, h2]

theorem be5_away : bestExisting "Brand New FC" ["Kauno Zalgiris", "Zalgiris Kaunas"]
    = (2363/14490, some "Kauno Zalgiris") := by
  unfold bestExisting
  simp only [List.foldl]
  rw [simValBK, simValBZ]
  norm_num

set_option maxRecDepth 8000 in
theorem std5_away : standardize st5b "Brand New FC" "basketball" true =
    ("Brand New FC",
     { status := "auto_added", best_existing_score := some (2363/14490),
       best_existing_team := some "Kauno Zalgiris" }, st5c) := by
  rw [standardize_auto st5b "Brand New FC" "basketball" "Brand New FC"
    ["Kauno Zalgiris", "Zalgiris Kaunas"] rfl (by decide) (by decide) (by decide) fbm5_away
    (by rw [be5_away]; show (2363/14490 : ℚ) < 7/10; norm_num)]
  rw [be5_away]
  with_unfolding_all rfl

/-- A team-name field that is absent from the object is skipped. -/
theorem teamFieldStep_none (sp f : String) (fs : List (String × PyVal)) (st : StdState)
    (ch : Bool) (tp : Nat) (hf : objGet fs f = none) :
    teamFieldStep sp (fs, st, ch, tp) f = (fs, st, ch, tp) := by
  unfold teamFieldStep
  dsimp only
  rw [hf]

/-- A present, non-empty team-name field whose standardization returns the
name unchanged: the field is left alone, the metadata sibling is attached,
the change flag is untouched and the counter advances. -/
theorem teamFieldStep_same (sp f s : String) (fs : List (String × PyVal)) (st : StdState)
    (ch : Bool) (tp : Nat) (d : MatchDetails) (st2 : StdState)
    (hf : objGet fs f = some (.str s)) (hs : ¬(s = ""))
    (hr : standardize st s sp true = (s, d, st2)) :
    teamFieldStep sp (fs, st, ch, tp) f =
      (objSet fs (f ++ "_standardization") (metaObj s s d), st2, ch, tp + 1) := by
  unfold teamFieldStep
  dsimp only
  rw [hf]
  dsimp only
  rw [if_neg hs]
  simp only [hr]
  have hss : ¬(s ≠ s) := not_not_intro rfl
  rw [if_neg hss, if_neg hss]

/-- The scenario document's fields. -/
def doc5fields : List (String × PyVal) :=
  [("sport", .str "basketball"), ("home_team", .str "Zalgiris Kaunas"),
   ("away_team", .str "Brand New FC")]

def d5home : MatchDetails :=
  { status := "auto_added", best_existing_score := some (4063189/6211800),
    best_existing_team := some "Kauno Zalgiris" }

def d5away : MatchDetails :=
  { status := "auto_added", best_existing_score := some (2363/14490),
    best_existing_team := some "Kauno Zalgiris" }

/-- The document's fields after the team-field pass: the two names are left
in place (both were auto-added rather than matched) and the two metadata
siblings are appended. -/
def fields5out : List (String × PyVal) :=
  [("sport", .str "basketball"), ("home_team", .str "Zalgiris Kaunas"),
   ("away_team", .str "Brand New FC"),
   ("home_team_standardization", metaObj "Zalgiris Kaunas" "Zalgiris Kaunas" d5home),
   ("away_team_standardization", metaObj "Brand New FC" "Brand New FC" d5away)]

theorem fold5 : teamFields.foldl (teamFieldStep "basketball") (doc5fields, st5, false, 0)
    = (fields5out, st5c, false, 2) := by
  simp only [teamFields, List.foldl]
  rw [teamFieldStep_same "basketball" "home_team" "Zalgiris Kaunas" doc5fields st5
    false 0 d5home st5b (by with_unfolding_all rfl) (by decide) std5_home]
  rw [teamFieldStep_same "basketball" "away_team" "Brand New FC" _ st5b
    false (0 + 1) d5away st5c (by with_unfolding_all rfl) (by decide) std5_away]
  rw [teamFieldStep_none "basketball" "team_name" _ st5c false (0 + 1 + 1)
    (by with_unfolding_all rfl)]
  rw [teamFieldStep_none "basketball" "team" _ st5c false (0 + 1 + 1)
    (by with_unfolding_all rfl)]
  rw [teamFieldStep_none "basketball" "participant" _ st5c false (0 + 1 + 1)
    (by with_unfolding_all rfl)]
  with_unfolding_all rfl

set_option maxRecDepth 40000 in
/-- The recursion into the processed fields finds no further team-name
fields (the metadata objects contain none), so it returns everything
unchanged; 20 units of fuel cover this subtree. -/
theorem procFields5 (fuel : Nat) : processFields (fuel + 20) st5c false 2 fields5out
    = (fields5out, st5c, false, 2) := by
  with_unfolding_all rfl

set_option maxRecDepth 40000 in
theorem procVal5 (fuel : Nat) : processVal (fuel + 21) st5 false 0 (.obj doc5fields)
    = (.obj fields5out, st5c, false, 2) := by
  rw [show fuel + 21 = (fuel + 20) + 1 from rfl]
  rw [processVal]
  rw [show sportOf doc5fields = "basketball" from rfl]
  rw [fold5]
  show (match processFields (fuel + 20) st5c false 2 fields5out with
    | (fields2, st2, ch2, tp2) => (PyVal.obj fields2, st2, ch2, tp2))
    = (PyVal.obj fields5out, st5c, false, 2)
  rw [procFields5 fuel]

def doc5 : PyVal := .obj doc5fields

/-- The processed document: both names unchanged, metadata attached, and
the summary reporting 2 processed fields, no changes, 2 new teams. -/
def doc5out : PyVal :=
  .obj (fields5out ++ [("_processing_summary", .obj
    [("teams_processed", .num 2),
     ("changes_made", .boolean false),
     ("new_teams_added", .num 2),
     ("auto_save_performed", .boolean false)])])

set_option maxRecDepth 40000 in
theorem api5 : processAPI st5 doc5 false = (doc5out, st5c) := by
  unfold processAPI
  rw [show 30 * pySize doc5 + 30 = 219 + 21 from by with_unfolding_all rfl]
  rw [show doc5 = PyVal.obj doc5fields from rfl]
  rw [procVal5 219]
  with_unfolding_all rfl

set_option maxRecDepth 40000 in
/-- C5: with the registry holding exactly the basketball entry
"Kauno Zalgiris", bulk-processing the document
`{"sport": "basketball", "home_team": "Zalgiris Kaunas",
"away_team": "Brand New FC"}` leaves `home_team` as "Zalgiris Kaunas"
(the code auto-adds it instead of matching it to "Kauno Zalgiris", since
its best score 4063189/6211800 ≈ 0.654 is below both thresholds), leaves
`away_team` as "Brand New FC" (also auto-added), and the summary reports
`teams_processed = 2`, `changes_made = false` and `new_teams_added = 2` —
diverging from the claimed rewrite of `home_team`, `changes_made = true`
and `new_teams_added = 1`. -/
theorem claimC5_bulk_process :
    getStrField (processAPI st5 doc5 false).1 "home_team" = some "Zalgiris Kaunas" ∧
    getStrField (processAPI st5 doc5 false).1 "away_team" = some "Brand New FC" ∧
    getNumField (processAPI st5 doc5 false).1 "_processing_summary" "teams_processed" = some 2 ∧
    getBoolField (processAPI st5 doc5 false).1 "_processing_summary" "changes_made" = some false ∧
    getNumField (processAPI st5 doc5 false).1 "_processing_summary" "new_teams_added" = some 2 ∧
    (processAPI st5 doc5 false).2.new_teams_added.length = 2 := by
  refine ⟨?_, ?_, ?_, ?_, ?_, ?_⟩ <;> rw [api5] <;> with_unfolding_all rfl

/-- The best-existing running maximum never decreases. -/
theorem be_fold_mono (name : String) :
    ∀ (l : List String) (acc : ℚ × Option String),
      acc.1 ≤ (l.foldl
        (fun (acc : ℚ × Option String) c =>
          if calculateSimilarity name c > acc.1 then (calculateSimilarity name c, some c) else acc)
        acc).1 := by
  intro l
  induction l with
  | nil => intro acc; simp
  | cons c rest ih =>
    intro acc
    simp only [List.foldl_cons]
    refine le_trans ?_ (ih _)
    split
    · next h => exact le_of_lt h
    · exact le_rfl

/-- Every candidate's score is bounded by the best-existing maximum. -/
theorem be_fold_ub (name : String) :
    ∀ (l : List String) (acc : ℚ × Option String), ∀ c ∈ l,
      calculateSimilarity name c ≤ (l.foldl
        (fun (acc : ℚ × Option String) c =>
          if calculateSimilarity name c > acc.1 then (calculateSimilarity name c, some c) else acc)
        acc).1 := by
  intro l
  induction l with
  | nil => intro acc c hc; simp at hc
  | cons c0 rest ih =>
    intro acc c hc
    rcases List.mem_cons.mp hc with he | hm
    · subst he
      simp only [List.foldl_cons]
      refine le_trans ?_ (be_fold_mono name rest _)
      split
      · exact le_rfl
      · next h => exact le_of_not_lt h
    · simp only [List.foldl_cons]
      exact ih _ c hm

theorem bestExisting_ub (name : String) (cands : List String) (c : String) (hc : c ∈ cands) :
    calculateSimilarity name c ≤ (bestExisting name cands).1 :=
  be_fold_ub name cands (0, none) c hc

/-- If every candidate scores strictly below the threshold, the selector
returns `None`. -/
theorem findBestMatch_none_of_lt (th : ℚ) (q : String) (cands : List String)
    (h : ∀ c ∈ cands, calculateSimilarity q c < th) :
    findBestMatch th q cands = none := by
  unfold findBestMatch
  by_cases hg : q = "" ∨ cands = []
  · rw [if_pos hg]
  · rw [if_neg hg]
    rcases fbm_fold_char q th cands none 0 with ⟨hfix, _⟩ | ⟨i, _, _, h3, _, _⟩
    · rw [hfix]
    · exact absurd h3 (not_le.mpr (h _ (cands.get_mem i.val i.isLt)))

/-- C3: with matching threshold 3/4 and auto-add threshold 7/10, a query
with no case-insensitive exact match whose best similarity against its
category's candidates lies in [7/10, 3/4) — the gray zone, e.g. a score of
0.72 — resolves as `no_match_no_add` for every auto_add flag, and the
standardizer state is unchanged. -/
theorem claimC3 (teams : List Team) (name sport : String) (aa : Bool) (cands : List String)
    (hnm : ¬(pyStrip name = ""))
    (hc : (dictGet (mkStandardizer teams (3/4) (7/10)).cache (pyLower sport)).getD [] = cands)
    (hex : cands.find? (fun c => pyLower c = pyLower (pyStrip name)) = none)
    (hlo : 7/10 ≤ (bestExisting (pyStrip name) cands).1)
    (hhi : (bestExisting (pyStrip name) cands).1 < 3/4) :
    (standardize (mkStandardizer teams (3/4) (7/10)) name sport aa).2.1.status
        = "no_match_no_add" ∧
    (standardize (mkStandardizer teams (3/4) (7/10)) name sport aa).2.2
        = mkStandardizer teams (3/4) (7/10) := by
  have hbm : findBestMatch (mkStandardizer teams (3/4) (7/10)).threshold (pyStrip name) cands
      = none := by
    apply findBestMatch_none_of_lt
    intro c hcm
    exact lt_of_le_of_lt (bestExisting_ub (pyStrip name) cands c hcm) hhi
  have hge : ¬(aa = true ∧ (bestExisting (pyStrip name) cands).1
      < (mkStandardizer teams (3/4) (7/10)).auto_add_threshold) := by
    rintro ⟨-, hlt⟩
    have : (mkStandardizer teams (3/4) (7/10)).auto_add_threshold = 7/10 := rfl
    rw [this] at hlt
    linarith
  rw [standardize_noadd (mkStandardizer teams (3/4) (7/10)) name sport (pyStrip name) aa
    cands rfl hnm hc hex hbm hge]
  exact ⟨rfl, rfl⟩

theorem beZg : bestExisting "Zalgiris" ["Kauno Zalgiris"]
    = (169963/240240, some "Kauno Zalgiris") := by
  unfold bestExisting
  simp only [List.foldl]
  rw [simValZgK]
  rw [if_pos (by norm_num)]

set_option maxRecDepth 20000 in
theorem claimC3_witness :
    (7/10 ≤ (bestExisting (pyStrip "Zalgiris") ["Kauno Zalgiris"]).1 ∧
     (bestExisting (pyStrip "Zalgiris") ["Kauno Zalgiris"]).1 < 3/4) ∧
    ((standardize (mkStandardizer [⟨"basketball", "Kauno Zalgiris"⟩] (3/4) (7/10))
        "Zalgiris" "basketball" true).2.1.status = "no_match_no_add" ∧
     (standardize (mkStandardizer [⟨"basketball", "Kauno Zalgiris"⟩] (3/4) (7/10))
        "Zalgiris" "basketball" true).2.2
        = mkStandardizer [⟨"basketball", "Kauno Zalgiris"⟩] (3/4) (7/10)) := by
  have hlo : 7/10 ≤ (bestExisting (pyStrip "Zalgiris") ["Kauno Zalgiris"]).1 := by
    rw [show pyStrip "Zalgiris" = "Zalgiris" from rfl, beZg]
    norm_num
  have hhi : (bestExisting (pyStrip "Zalgiris") ["Kauno Zalgiris"]).1 < 3/4 := by
    rw [show pyStrip "Zalgiris" = "Zalgiris" from rfl, beZg]
    norm_num
  exact ⟨⟨hlo, hhi⟩,
    claimC3 [⟨"basketball", "Kauno Zalgiris"⟩] "Zalgiris" "basketball" true
      ["Kauno Zalgiris"] (by decide) (by decide) (by decide) hlo hhi⟩

/-- C6 (amended: the threshold must be positive — with threshold 0 a
candidate can reach the threshold with score 0 yet never be selected,
since selection needs a strict improvement over the initial best of 0):
for positive thresholds the selector returns `None` exactly when no
candidate reaches the threshold; otherwise it returns the first-seen
candidate attaining the maximum score (earlier candidates score strictly
less, no candidate scores more, and an equal later score does not
displace it), together with that score. -/
theorem claimC6 (th : ℚ) (q : String) (l : List String) (hth : 0 < th) :
    (findBestMatch th q l = none ↔ ∀ c ∈ l, calculateSimilarity q c < th) ∧
    (∀ m s, findBestMatch th q l = some (m, s) →
      ∃ i : Fin l.length, m = l.get i ∧ s = calculateSimilarity q (l.get i) ∧
        th ≤ s ∧ (∀ j : Fin l.length, j.val < i.val → calculateSimilarity q (l.get j) < s) ∧
        (∀ c ∈ l, calculateSimilarity q c ≤ s)) := by
  constructor
  · constructor
    · intro hnone c hc
      by_cases hq : q = ""
      · rw [hq, calcSim_empty_left]
        exact hth
      · have hl : l ≠ [] := List.ne_nil_of_mem hc
        unfold findBestMatch at hnone
        rw [if_neg (by simp [hq, hl])] at hnone
        rcases fbm_fold_char q th l none 0 with ⟨hfix, hall⟩ | ⟨i, h1, h2, h3, _, _⟩
        · by_contra hge
          push_neg at hge
          exact hall c hc ⟨lt_of_lt_of_le hth hge, hge⟩
        · exfalso
          have hfold : l.foldl (fbmStep q th) ((none : Option String), (0 : ℚ))
              = (some (l.get i), calculateSimilarity q (l.get i)) := by
            have := Prod.mk.eta (p := l.foldl (fbmStep q th) ((none : Option String), (0 : ℚ)))
            rw [← this, h1, h2]
          rw [hfold] at hnone
          by_cases hmi : l.get i = ""
          · rw [hmi, calcSim_empty_right] at h3
            exact absurd (lt_of_lt_of_le hth h3) (lt_irrefl 0)
          · replace hnone : (if l.get i = "" then none
                else some (l.get i, calculateSimilarity q (l.get i))) = none := hnone
            rw [if_neg hmi] at hnone
            exact Option.noConfusion hnone
    · exact findBestMatch_none_of_lt th q l
  · intro m s hsome
    unfold findBestMatch at hsome
    by_cases hg : q = "" ∨ l = []
    · rw [if_pos hg] at hsome
      exact Option.noConfusion hsome
    · rw [if_neg hg] at hsome
      rcases fbm_fold_char q th l none 0 with ⟨hfix, hall⟩ | ⟨i, h1, h2, h3, _, h5⟩
      · rw [hfix] at hsome
        exact Option.noConfusion hsome
      · have hfold : l.foldl (fbmStep q th) ((none : Option String), (0 : ℚ))
            = (some (l.get i), calculateSimilarity q (l.get i)) := by
          have := Prod.mk.eta (p := l.foldl (fbmStep q th) ((none : Option String), (0 : ℚ)))
          rw [← this, h1, h2]
        rw [hfold] at hsome
        replace hsome : (if l.get i = "" then none
            else some (l.get i, calculateSimilarity q (l.get i))) = some (m, s) := hsome
        by_cases hmi : l.get i = ""
        · rw [if_pos hmi] at hsome
          exact Option.noConfusion hsome
        · rw [if_neg hmi] at hsome
          have hms : m = l.get i ∧ calculateSimilarity q (l.get i) = s := by
            have := Option.some.inj hsome
            exact ⟨(Prod.mk.injEq _ _ _ _ ▸ this).1.symm, (Prod.mk.injEq _ _ _ _ ▸ this).2⟩
          refine ⟨i, hms.1, hms.2.symm, hms.2 ▸ h3, ?_, ?_⟩
          · intro j hj
            rw [← hms.2]
            exact h5 j hj
          · intro c hc
            rw [← hms.2]
            by_cases hcth : th ≤ calculateSimilarity q c
            · have := fbm_fold_ub q th l ((none : Option String), (0 : ℚ)) c hc hcth
              rw [hfold] at this
              exact this
            · push_neg at hcth
              exact le_trans (le_of_lt hcth) h3

/-- C10: two non-empty, distinct raw strings with equal normalized forms
(for instance two different names made only of stripped qualifiers, which
both normalize to the empty string) score exactly 1, and therefore clear
every matching threshold at most 1: whenever such a partner is among the
candidates, the selector returns a match with score 1. -/
theorem claimC10 (s1 s2 : String) (h1 : ¬(s1 = "")) (h2 : ¬(s2 = "")) (h3 : ¬(s1 = s2))
    (h4 : normalizeText s1 = normalizeText s2) :
    calculateSimilarity s1 s2 = 1 ∧
    ∀ th : ℚ, th ≤ 1 → ∀ cands : List String, s2 ∈ cands →
      ∃ m : String, findBestMatch th s1 cands = some (m, 1) := by
  have hsim : calculateSimilarity s1 s2 = 1 := calcSim_of_norm_eq h1 h2 h4
  refine ⟨hsim, ?_⟩
  intro th hth cands hmem
  have hl : cands ≠ [] := List.ne_nil_of_mem hmem
  rcases fbm_fold_char s1 th cands none 0 with ⟨hfix, hall⟩ | ⟨i, hh1, hh2, hh3, _, _⟩
  · exact absurd (hall s2 hmem ⟨by rw [hsim]; norm_num, by rw [hsim]; exact hth⟩) (by simp)
  · have hub : (1 : ℚ) ≤ (cands.foldl (fbmStep s1 th) ((none : Option String), (0 : ℚ))).2 := by
      have := fbm_fold_ub s1 th cands ((none : Option String), (0 : ℚ)) s2 hmem
        (by rw [hsim]; exact hth)
      rw [hsim] at this
      exact this
    have hone : calculateSimilarity s1 (cands.get i) = 1 := by
      rw [hh2] at hub
      exact le_antisymm (calcSim_le_one _ _) hub
    have hfold : cands.foldl (fbmStep s1 th) ((none : Option String), (0 : ℚ))
        = (some (cands.get i), 1) := by
      have := Prod.mk.eta (p := cands.foldl (fbmStep s1 th) ((none : Option String), (0 : ℚ)))
      rw [← this, hh1, hh2, hone]
    have hmi : ¬(cands.get i = "") := by
      intro he
      rw [he, calcSim_empty_right] at hone
      norm_num at hone
    refine ⟨cands.get i, ?_⟩
    unfold findBestMatch
    rw [if_neg (by simp [h1, hl]), hfold]
    show (if cands.get i = "" then none else some (cands.get i, (1 : ℚ)))
      = some (cands.get i, 1)
    rw [if_neg hmi]

/-- C9: the five similarity metrics (Levenshtein ratio, Jaro, bigram
Jaccard, token-sort ratio, token-set ratio) are each symmetric and bounded
in [0,1] on all inputs, and return exactly 1 on any pair of equal
non-empty strings. -/
theorem claimC9 :
    (∀ a b : String, levRatioQ a b = levRatioQ b a
      ∧ 0 ≤ levRatioQ a b ∧ levRatioQ a b ≤ 1) ∧
    (∀ a b : String, jaroQ a b = jaroQ b a ∧ 0 ≤ jaroQ a b ∧ jaroQ a b ≤ 1) ∧
    (∀ a b : String, jaccardQ a b 2 = jaccardQ b a 2
      ∧ 0 ≤ jaccardQ a b 2 ∧ jaccardQ a b 2 ≤ 1) ∧
    (∀ a b : String, tokenSortQ a b = tokenSortQ b a
      ∧ 0 ≤ tokenSortQ a b ∧ tokenSortQ a b ≤ 1) ∧
    (∀ a b : String, tokenSetQ a b = tokenSetQ b a
      ∧ 0 ≤ tokenSetQ a b ∧ tokenSetQ a b ≤ 1) ∧
    (∀ x : String, ¬(x = "") →
      levRatioQ x x = 1 ∧ jaroQ x x = 1 ∧ jaccardQ x x 2 = 1
        ∧ tokenSortQ x x = 1 ∧ tokenSetQ x x = 1) :=
  ⟨fun a b => ⟨levRatioQ_symm a b, levRatioQ_nonneg a b, levRatioQ_le_one a b⟩,
   fun a b => ⟨jaroQ_symm a b, jaroQ_nonneg a b, jaroQ_le_one a b⟩,
   fun a b => ⟨jaccardQ_symm a b 2, jaccardQ_nonneg a b 2, jaccardQ_le_one a b 2⟩,
   fun a b => ⟨tokenSortQ_symm a b, tokenSortQ_nonneg a b, tokenSortQ_le_one a b⟩,
   fun a b => ⟨tokenSetQ_symm a b, tokenSetQ_nonneg a b, tokenSetQ_le_one a b⟩,
   fun x hx => ⟨levRatioQ_self x, jaroQ_self x hx, jaccardQ_self x 2 (by norm_num),
     tokenSortQ_self x, tokenSetQ_self x⟩⟩

/-- C1 (amended: the exact-match scan compares each stored candidate's
lowercase against the lowercase of the *trimmed* query, not the raw one):
whenever the category's candidate list contains a name whose lowercase
equals the trimmed query's lowercase, the call returns the first such
stored name with status `exact_match` and score 1.0, for every threshold
configuration and auto_add flag, and the state is unchanged. -/
theorem claimC1 (st : StdState) (name sport : String) (aa : Bool)
    (cands : List String) (c : String)
    (hnm : ¬(pyStrip name = ""))
    (hc : (dictGet st.cache (pyLower sport)).getD [] = cands)
    (hfind : cands.find? (fun x => pyLower x = pyLower (pyStrip name)) = some c) :
    standardize st name sport aa = (c, { status := "exact_match", score := some 1 }, st) :=
  standardize_exact st name sport (pyStrip name) aa cands c rfl hnm hc hfind

/-- C2 (amended: the call returns and registers the *trimmed* name — not
the raw one — and stores the lowercased category): with no candidates in
the category, a positive auto-add threshold and `auto_add = true`, every
name that is non-empty after trimming is auto-added: the trimmed name is
returned and the pair (lowercased category, trimmed name) is appended to
both the registry and the session log. -/
theorem claimC2 (st : StdState) (name sport : String)
    (hnm : ¬(pyStrip name = ""))
    (hc : (dictGet st.cache (pyLower sport)).getD [] = [])
    (haath : 0 < st.auto_add_threshold) :
    standardize st name sport true =
      (pyStrip name,
       { status := "auto_added", best_existing_score := some 0,
         best_existing_team := none },
       { st with
         teams_map := st.teams_map ++ [⟨pyLower sport, pyStrip name⟩],
         cache := dictAppend st.cache (pyLower sport) (pyStrip name),
         new_teams_added := st.new_teams_added ++ [⟨pyLower sport, pyStrip name⟩] }) := by
  rw [standardize_auto st name sport (pyStrip name) [] rfl hnm hc rfl
    (findBestMatch_nil _ _)
    (show (bestExisting (pyStrip name) []).1 < st.auto_add_threshold from haath)]
  rfl

/-- C7: the constructor performs no validation of the thresholds — an
auto-add threshold above the matching threshold, and even thresholds far
outside [0,1], are stored verbatim and construction succeeds, contradicting
the required rejection (or clamping) of such configurations. -/
theorem claimC7 :
    (mkStandardizer [] (1/2) (9/10)).threshold = 1/2 ∧
    (mkStandardizer [] (1/2) (9/10)).auto_add_threshold = 9/10 ∧
    (mkStandardizer [] (3/2) (-1)).threshold = 3/2 ∧
    (mkStandardizer [] (3/2) (-1)).auto_add_threshold = -1 :=
  ⟨rfl, rfl, rfl, rfl⟩

set_option maxRecDepth 20000 in
theorem claimC1_cex :
    pyLower " X " = pyLower " X " ∧
    (standardize (mkStandardizer [⟨"b", " X "⟩] (3/4) (7/10)) " X " "b" false).2.1.status
      = "fuzzy_match" :=
  ⟨rfl, by with_unfolding_all decide⟩

set_option maxRecDepth 20000 in
theorem claimC1_witness :
    (["Lakers"].find? (fun x => pyLower x = pyLower (pyStrip " LAKERS ")) = some "Lakers") ∧
    standardize (mkStandardizer [⟨"b", "Lakers"⟩] (3/4) (7/10)) " LAKERS " "B" true
      = ("Lakers", { status := "exact_match", score := some 1 },
         mkStandardizer [⟨"b", "Lakers"⟩] (3/4) (7/10)) :=
  ⟨by decide, claimC1 (mkStandardizer [⟨"b", "Lakers"⟩] (3/4) (7/10)) " LAKERS " "B" true
    ["Lakers"] "Lakers" (by decide) (by decide) (by decide)⟩

set_option maxRecDepth 20000 in
theorem claimC2_cex :
    ¬((standardize (mkStandardizer [] (3/4) (7/10)) " X " "b" true).1 = " X ") := by
  with_unfolding_all decide

set_option maxRecDepth 20000 in
theorem claimC2_witness :
    ¬(pyStrip " Real Madrid " = "") ∧
    (standardize (mkStandardizer [] (3/4) (7/10)) " Real Madrid " "Soccer" true).1
      = "Real Madrid" := by
  refine ⟨by decide, ?_⟩
  rw [claimC2 (mkStandardizer [] (3/4) (7/10)) " Real Madrid " "Soccer" (by decide) (by decide)
    (show (0 : ℚ) < 7/10 by norm_num)]
  rfl

set_option maxRecDepth 20000 in
theorem claimC4_cex :
    (runCalls (mkStandardizer [⟨"", "X"⟩] (3/4) (7/10)) [("X", "", true)]).teams_map
      = [⟨"", "X"⟩, ⟨"", "X"⟩] := by
  with_unfolding_all decide

set_option maxRecDepth 100000 in
theorem claimC6_cex :
    findBestMatch 0 "a" ["b"] = none ∧ (0 : ℚ) ≤ calculateSimilarity "a" "b" := by
  with_unfolding_all decide

theorem claimC6_witness :
    (0 : ℚ) < 3/4 ∧
    ((findBestMatch (3/4) "FC" ["SC"] = none ↔
        ∀ c ∈ ["SC"], calculateSimilarity "FC" c < 3/4) ∧
      (∀ m s, findBestMatch (3/4) "FC" ["SC"] = some (m, s) →
        ∃ i : Fin (["SC"] : List String).length, m = (["SC"] : List String).get i ∧
          s = calculateSimilarity "FC" ((["SC"] : List String).get i) ∧
          3/4 ≤ s ∧
          (∀ j : Fin (["SC"] : List String).length, j.val < i.val →
            calculateSimilarity "FC" ((["SC"] : List String).get j) < s) ∧
          (∀ c ∈ (["SC"] : List String), calculateSimilarity "FC" c ≤ s))) :=
  ⟨by norm_num, claimC6 (3/4) "FC" ["SC"] (by norm_num)⟩

set_option maxRecDepth 20000 in
theorem claimC8_cex :
    ¬(normalizeText (normalizeText "f&c") = normalizeText "f&c") := by
  with_unfolding_all decide

set_option maxRecDepth 20000 in
theorem claimC9_witness :
    ¬(("ab" : String) = "") ∧
    (levRatioQ "ab" "ab" = 1 ∧ jaroQ "ab" "ab" = 1 ∧ jaccardQ "ab" "ab" 2 = 1
      ∧ tokenSortQ "ab" "ab" = 1 ∧ tokenSetQ "ab" "ab" = 1) ∧
    levRatioQ "ab" "ba" = levRatioQ "ba" "ab" :=
  ⟨by decide, claimC9.2.2.2.2.2 "ab" (by decide), (claimC9.1 "ab" "ba").1⟩

set_option maxRecDepth 20000 in
theorem claimC10_witness :
    ¬(("FC" : String) = "SC") ∧ normalizeText "FC" = normalizeText "SC" ∧
    (calculateSimilarity "FC" "SC" = 1 ∧
     ∀ th : ℚ, th ≤ 1 → ∀ cands : List String, "SC" ∈ cands →
       ∃ m : String, findBestMatch th "FC" cands = some (m, 1)) := by
  have h4 : normalizeText "FC" = normalizeText "SC" := by with_unfolding_all decide
  exact ⟨by decide, h4, claimC10 "FC" "SC" (by decide) (by decide) (by decide) h4⟩

theorem toNat_ofNat_valid {n : Nat} (h : n.isValidChar) : (Char.ofNat n).toNat = n := by
  rw [Char.ofNat, dif_pos h]
  rfl

/-- ASCII lowercasing is idempotent on characters. -/
theorem toLower_idem (c : Char) : c.toLower.toLower = c.toLower := by
  unfold Char.toLower
  by_cases h : c.toNat ≥ 65 ∧ c.toNat ≤ 90
  · rw [if_pos h]
    have hv : (c.toNat + 32).isValidChar := Or.inl (by omega)
    rw [if_neg (by rw [toNat_ofNat_valid hv]; omega)]
  · rw [if_neg h, if_neg h]

/-- `str.lower()` is idempotent. -/
theorem pyLower_idem (s : String) : pyLower (pyLower s) = pyLower s := by
  unfold pyLower
  refine congrArg String.mk ?_
  show (s.data.map Char.toLower).map Char.toLower = s.data.map Char.toLower
  rw [List.map_map]
  exact List.map_congr_left (fun c _ => toLower_idem c)

theorem pyLower_ne_empty {s : String} (h : ¬(s = "")) : ¬(pyLower s = "") := by
  intro he
  apply h
  unfold pyLower at he
  have : s.data.map Char.toLower = [] := congrArg String.data he
  have hd : s.data = [] := List.map_eq_nil_iff.mp this
  cases s with
  | mk d => exact congrArg String.mk hd

/-- A lowercased pair equality transfers emptiness. -/
theorem ne_empty_of_pyLower_eq {a b : String} (h : pyLower a = pyLower b) (ha : ¬(a = "")) :
    ¬(b = "") := by
  intro hb
  subst hb
  exact pyLower_ne_empty ha (by rw [h]; rfl)

/-- The value just appended is in its bucket. -/
theorem mem_dictAppend_self (c : List (String × List String)) (k v : String) :
    v ∈ (dictGet (dictAppend c k v) k).getD [] := by
  induction c with
  | nil => simp [dictAppend, dictGet]
  | cons p rest ih =>
    obtain ⟨k0, vs⟩ := p
    by_cases h : k0 = k
    · subst h
      simp [dictAppend, dictGet]
    · simpa [dictAppend, dictGet, h] using ih

/-- Appending never removes a value from any bucket. -/
theorem mem_dictAppend_mono (c : List (String × List String)) (k k' v x : String)
    (hx : x ∈ (dictGet c k).getD []) : x ∈ (dictGet (dictAppend c k' v) k).getD [] := by
  induction c with
  | nil => simp [dictGet] at hx
  | cons p rest ih =>
    obtain ⟨k0, vs⟩ := p
    by_cases h1 : k0 = k'
    · subst h1
      by_cases h2 : k0 = k
      · subst h2
        simp only [dictGet, if_pos rfl, Option.getD_some] at hx
        simp only [dictAppend, if_pos rfl, dictGet, Option.getD_some]
        exact List.mem_append_left _ hx
      · simp only [dictAppend, if_pos rfl, dictGet, if_neg h2]
        simpa [dictGet, if_neg h2] using hx
    · by_cases h2 : k0 = k
      · subst h2
        simp only [dictAppend, if_neg h1, dictGet, if_pos rfl, Option.getD_some]
        simpa [dictGet] using hx
      · simp only [dictAppend, if_neg h1, dictGet, if_neg h2]
        exact ih (by simpa [dictGet, if_neg h2] using hx)

/-- Fold invariant for `_build_cache`: an entry of the team list with truthy
lowercased sport and truthy name ends up in its sport's bucket. -/
theorem mem_buildCache_aux :
    ∀ (teams : List Team) (c0 : List (String × List String)) (t : Team),
      ((t ∈ teams ∧ ¬(pyLower t.sport = "") ∧ ¬(t.canonical_team_name = "")) ∨
        t.canonical_team_name ∈ (dictGet c0 (pyLower t.sport)).getD []) →
      t.canonical_team_name ∈ (dictGet (teams.foldl cacheStep c0) (pyLower t.sport)).getD [] := by
  intro teams
  induction teams with
  | nil =>
    rintro c0 t (⟨h, -, -⟩ | h)
    · simp at h
    · simpa using h
  | cons u rest ih =>
    rintro c0 t (⟨hmem, hs, hn⟩ | hin)
    · rcases List.mem_cons.mp hmem with he | hm
      · subst he
        refine ih (cacheStep c0 t) t (Or.inr ?_)
        unfold cacheStep
        rw [if_pos ⟨hs, hn⟩]
        exact mem_dictAppend_self c0 (pyLower t.sport) t.canonical_team_name
      · exact ih (cacheStep c0 u) t (Or.inl ⟨hm, hs, hn⟩)
    · refine ih (cacheStep c0 u) t (Or.inr ?_)
      unfold cacheStep
      split
      · exact mem_dictAppend_mono c0 _ _ _ _ hin
      · exact hin

theorem mem_buildCache (teams : List Team) (t : Team) (ht : t ∈ teams)
    (hs : ¬(pyLower t.sport = "")) (hn : ¬(t.canonical_team_name = "")) :
    t.canonical_team_name ∈ (dictGet (buildCache teams) (pyLower t.sport)).getD [] :=
  mem_buildCache_aux teams [] t (Or.inl ⟨ht, hs, hn⟩)

theorem buildCache_snoc (ts : List Team) (t : Team) :
    buildCache (ts ++ [t]) = cacheStep (buildCache ts) t := by
  unfold buildCache
  rw [List.foldl_append]
  rfl

/-- The invariant maintained by the standardizer: the cache is exactly
`_build_cache` of the registry, every entry has a truthy sport and name,
and no two entries share the `(sport.lower, name.lower)` key. -/
def goodState (st : StdState) : Prop :=
  st.cache = buildCache st.teams_map ∧
  (∀ t ∈ st.teams_map, ¬(t.sport = "") ∧ ¬(t.canonical_team_name = "")) ∧
  st.teams_map.Pairwise (fun t u =>
    ¬(pyLower t.sport = pyLower u.sport ∧
      pyLower t.canonical_team_name = pyLower u.canonical_team_name))

/-- `standardize_team_name` preserves the invariant whenever the call's
category is non-empty: the only mutating branch (auto-add) is reachable
only when the exact-match scan failed, which under the invariant rules out
a registered entry with the same key. -/
theorem standardize_preserves_good (st : StdState) (name sport : String) (aa : Bool)
    (hg : goodState st) (hsp : ¬(sport = "")) :
    goodState (standardize st name sport aa).2.2 := by
  obtain ⟨hcache, hok, hkeys⟩ := hg
  by_cases h1 : pyStrip name = ""
  · rw [standardize_empty st name sport aa h1]
    exact ⟨hcache, hok, hkeys⟩
  cases hf : ((dictGet st.cache (pyLower sport)).getD []).find?
      (fun c => pyLower c = pyLower (pyStrip name)) with
  | some c =>
    rw [standardize_exact st name sport (pyStrip name) aa _ c rfl h1 rfl hf]
    exact ⟨hcache, hok, hkeys⟩
  | none =>
    cases hb : findBestMatch st.threshold (pyStrip name)
        ((dictGet st.cache (pyLower sport)).getD []) with
    | some p =>
      obtain ⟨m, s⟩ := p
      rw [standardize_fuzzy st name sport (pyStrip name) aa _ m s rfl h1 rfl hf hb]
      exact ⟨hcache, hok, hkeys⟩
    | none =>
      by_cases hcond : aa = true ∧ (bestExisting (pyStrip name)
          ((dictGet st.cache (pyLower sport)).getD [])).1 < st.auto_add_threshold
      · obtain ⟨haa, hlt⟩ := hcond
        subst haa
        rw [standardize_auto st name sport (pyStrip name) _ rfl h1 rfl hf hb hlt]
        refine ⟨?_, ?_, ?_⟩
        · show dictAppend st.cache (pyLower sport) (pyStrip name)
            = buildCache (st.teams_map ++ [⟨pyLower sport, pyStrip name⟩])
          rw [buildCache_snoc]
          unfold cacheStep
          rw [if_pos ⟨by
              show ¬(pyLower (pyLower sport) = "")
              rw [pyLower_idem]
              exact pyLower_ne_empty hsp, h1⟩]
          show dictAppend st.cache (pyLower sport) (pyStrip name)
            = dictAppend (buildCache st.teams_map) (pyLower (pyLower sport)) (pyStrip name)
          rw [pyLower_idem, hcache]
        · intro t ht
          rcases List.mem_append.mp ht with hmem | hnew
          · exact hok t hmem
          · rcases List.mem_singleton.mp hnew with rfl
            exact ⟨pyLower_ne_empty hsp, h1⟩
        · rw [List.pairwise_append]
          refine ⟨hkeys, List.pairwise_singleton _ _, ?_⟩
          intro t ht u hu
          rcases List.mem_singleton.mp hu with rfl
          rintro ⟨hks, hkn⟩
          show False
          have hsEq : pyLower t.sport = pyLower sport := by
            rw [hks]
            show pyLower (pyLower sport) = pyLower sport
            exact pyLower_idem sport
          have hmemB : t.canonical_team_name
              ∈ (dictGet st.cache (pyLower sport)).getD [] := by
            rw [hcache, ← hsEq]
            exact mem_buildCache st.teams_map t ht
              (by rw [hsEq]; exact pyLower_ne_empty hsp) (hok t ht).2
          have hpred : pyLower t.canonical_team_name = pyLower (pyStrip name) := hkn
          have := List.find?_eq_none.mp hf t.canonical_team_name hmemB
          simp only [decide_eq_true_eq] at this
          exact this hpred
      · rw [standardize_noadd st name sport (pyStrip name) aa _ rfl h1 rfl hf hb hcond]
        exact ⟨hcache, hok, hkeys⟩

/-- The invariant survives any sequence of calls whose categories are all
non-empty. -/
theorem runCalls_preserves_good (calls : List (String × String × Bool)) :
    ∀ (st : StdState), goodState st → (∀ cl ∈ calls, ¬(cl.2.1 = "")) →
      goodState (runCalls st calls) := by
  induction calls with
  | nil => intro st hg _; exact hg
  | cons cl rest ih =>
    intro st hg hcl
    obtain ⟨nm, sp, aa⟩ := cl
    exact ih _ (standardize_preserves_good st nm sp aa hg (hcl ⟨nm, sp, aa⟩ (.head _)))
      (fun c hc => hcl c (.tail _ hc))

/-- C4 (amended: the uniqueness invariant additionally requires every
registry entry to carry a non-empty sport and name and every call to pass a
non-empty category — an entry with an empty sport is invisible to the
cache, so standardizing it again duplicates its key): starting from any
such registry, after any sequence of calls with non-empty categories no two
entries share the `(sport.lower, name.lower)` key, and standardizing a name
whose trimmed lowercase matches a registered entry of its category resolves
as `exact_match` without mutating the state. -/
theorem claimC4 (teams : List Team) (th aath : ℚ)
    (hok : ∀ t ∈ teams, ¬(t.sport = "") ∧ ¬(t.canonical_team_name = ""))
    (hkeys : teams.Pairwise (fun t u =>
      ¬(pyLower t.sport = pyLower u.sport ∧
        pyLower t.canonical_team_name = pyLower u.canonical_team_name)))
    (calls : List (String × String × Bool)) (hcalls : ∀ cl ∈ calls, ¬(cl.2.1 = "")) :
    (runCalls (mkStandardizer teams th aath) calls).teams_map.Pairwise (fun t u =>
      ¬(pyLower t.sport = pyLower u.sport ∧
        pyLower t.canonical_team_name = pyLower u.canonical_team_name)) ∧
    (∀ (name sport : String) (aa : Bool) (t : Team),
       t ∈ (runCalls (mkStandardizer teams th aath) calls).teams_map →
       ¬(sport = "") →
       pyLower t.sport = pyLower sport →
       pyLower t.canonical_team_name = pyLower (pyStrip name) →
       (standardize (runCalls (mkStandardizer teams th aath) calls) name sport aa).2.1.status
           = "exact_match" ∧
       (standardize (runCalls (mkStandardizer teams th aath) calls) name sport aa).2.2
           = runCalls (mkStandardizer teams th aath) calls) := by
  have hg0 : goodState (mkStandardizer teams th aath) := ⟨rfl, hok, hkeys⟩
  have hg := runCalls_preserves_good calls (mkStandardizer teams th aath) hg0 hcalls
  obtain ⟨hcache, hok2, hkeys2⟩ := hg
  refine ⟨hkeys2, ?_⟩
  intro name sport aa t ht hsp hks hkn
  have hnm : ¬(pyStrip name = "") := by
    intro he
    have hne : ¬(pyLower t.canonical_team_name = "") := pyLower_ne_empty (hok2 t ht).2
    rw [hkn, he] at hne
    exact hne rfl
  have hmemB : t.canonical_team_name
      ∈ (dictGet (runCalls (mkStandardizer teams th aath) calls).cache (pyLower sport)).getD []
      := by
    rw [hcache, ← hks]
    exact mem_buildCache _ t ht (by rw [hks]; exact pyLower_ne_empty hsp) (hok2 t ht).2
  have hsome : ((((dictGet (runCalls (mkStandardizer teams th aath) calls).cache
      (pyLower sport)).getD []).find?
      (fun c => pyLower c = pyLower (pyStrip name)))).isSome := by
    rw [List.find?_isSome]
    exact ⟨t.canonical_team_name, hmemB, by simp [hkn]⟩
  obtain ⟨c, hc⟩ := Option.isSome_iff_exists.mp hsome
  rw [standardize_exact (runCalls (mkStandardizer teams th aath) calls) name sport
    (pyStrip name) aa _ c rfl hnm rfl hc]
  exact ⟨rfl, rfl⟩

theorem claimC4_witness :
    (∀ cl ∈ ([("Y", "b", true)] : List (String × String × Bool)), ¬(cl.2.1 = "")) ∧
    ((runCalls (mkStandardizer [⟨"b", "X"⟩] (3/4) (7/10)) [("Y", "b", true)]).teams_map.Pairwise
       (fun t u => ¬(pyLower t.sport = pyLower u.sport ∧
         pyLower t.canonical_team_name = pyLower u.canonical_team_name)) ∧
     (∀ (name sport : String) (aa : Bool) (t : Team),
        t ∈ (runCalls (mkStandardizer [⟨"b", "X"⟩] (3/4) (7/10)) [("Y", "b", true)]).teams_map →
        ¬(sport = "") →
        pyLower t.sport = pyLower sport →
        pyLower t.canonical_team_name = pyLower (pyStrip name) →
        (standardize (runCalls (mkStandardizer [⟨"b", "X"⟩] (3/4) (7/10)) [("Y", "b", true)])
            name sport aa).2.1.status = "exact_match" ∧
        (standardize (runCalls (mkStandardizer [⟨"b", "X"⟩] (3/4) (7/10)) [("Y", "b", true)])
            name sport aa).2.2
            = runCalls (mkStandardizer [⟨"b", "X"⟩] (3/4) (7/10)) [("Y", "b", true)])) :=
  ⟨by decide, claimC4 [⟨"b", "X"⟩] (3/4) (7/10) (by decide) (by decide)
    [("Y", "b", true)] (by decide)⟩

/-- Does any alternative of the pass fire anywhere in the scan?  Mirrors the
scan of `subScanF` without substituting. -/
def hasRepl (alts : List (List Char × List Char)) : Nat → Option Char → List Char → Bool
  | 0, _, _ => false
  | _ + 1, _, [] => false
  | fuel + 1, prev, c :: cs =>
    match findRepl alts prev (c :: cs) with
    | some _ => true
    | none => hasRepl alts fuel (some c) cs

/-- A scan that never fires is the identity. -/
theorem subScanF_id (alts : List (List Char × List Char)) :
    ∀ (fuel : Nat) (prev : Option Char) (s : List Char),
      hasRepl alts fuel prev s = false → subScanF alts fuel prev s = s := by
  intro fuel
  induction fuel with
  | zero => intro prev s _; rfl
  | succ n ih =>
    intro prev s h
    match s with
    | [] => rfl
    | c :: cs =>
      unfold hasRepl at h
      unfold subScanF
      cases hf : findRepl alts prev (c :: cs) with
      | some p =>
        rw [hf] at h
        replace h : true = false := h
        exact absurd h (by simp)
      | none =>
        rw [hf] at h
        replace h : hasRepl alts n (some c) cs = false := h
        show c :: subScanF alts n (some c) cs = c :: cs
        rw [ih (some c) cs h]

/-- Whitespace is canonical: every whitespace character is a plain space
and no two spaces are adjacent. -/
def okWs : List Char → Bool
  | [] => true
  | c :: cs =>
    ((!c.isWhitespace) || (c == ' ' && (match cs with
      | d :: _ => !d.isWhitespace
      | [] => true))) && okWs cs

/-- Collapsing whitespace runs is the identity on canonical whitespace. -/
theorem collapseF_id : ∀ (fuel : Nat) (l : List Char), okWs l = true →
    l.length ≤ fuel → collapseF fuel l = l := by
  intro fuel
  induction fuel with
  | zero =>
    intro l _ hlen
    rfl
  | succ n ih =>
    intro l hok hlen
    match l with
    | [] => rfl
    | c :: cs =>
      unfold okWs at hok
      rw [Bool.and_eq_true] at hok
      obtain ⟨hc, hcs⟩ := hok
      unfold collapseF
      by_cases hw : c.isWhitespace
      · rw [if_pos hw]
        rw [Bool.or_eq_true] at hc
        rcases hc with hc | hc
        · rw [hw] at hc; exact absurd hc (by simp)
        · rw [Bool.and_eq_true] at hc
          obtain ⟨hsp, hnext⟩ := hc
          have hcsp : c = ' ' := by
            have := of_decide_eq_true hsp
            exact this
          have hdrop : cs.dropWhile Char.isWhitespace = cs := by
            match cs with
            | [] => rfl
            | d :: ds =>
              have hd : d.isWhitespace = false := by
                simpa using hnext
              simp [List.dropWhile, hd]
          rw [hdrop, hcsp]
          rw [ih cs hcs (by simpa using Nat.le_of_succ_le_succ hlen)]
      · rw [if_neg hw]
        rw [ih cs hcs (by simpa using Nat.le_of_succ_le_succ hlen)]

/-- Chained single-pass substitutions that never fire are the identity. -/
theorem foldl_subScan_id (l : List Char) :
    ∀ (tbl : List (List Char × List Char)),
      tbl.all (fun pr => !hasRepl [pr] l.length none l) = true →
      tbl.foldl (fun t pr => subScan [pr] none t) l = l := by
  intro tbl
  induction tbl with
  | nil => intro _; rfl
  | cons pr rest ih =>
    intro h
    rw [List.all_cons, Bool.and_eq_true] at h
    obtain ⟨hpr, hrest⟩ := h
    have hid : subScan [pr] none l = l :=
      subScanF_id [pr] l.length none l (by simpa using hpr)
    simp only [List.foldl_cons, hid]
    exact ih hrest

/-- The output of `_normalize_text` is in normal form when it is
lowercase-fixed and trim-fixed, none of the substitution passes fires on
it, every character is a word character or a plain space, and whitespace is
canonical.  All seven conditions are decidable. -/
def goodOut (s : String) : Prop :=
  pyLower s = s ∧ pyStrip s = s ∧
  abbrevTable.all (fun pr => !hasRepl [pr] s.data.length none s.data) = true ∧
  (!hasRepl removeTable1 s.data.length none s.data) = true ∧
  (!hasRepl removeTable2 s.data.length none s.data) = true ∧
  s.data.all (fun c => isWordChar c || c == ' ') = true ∧
  okWs s.data = true

/-- A string in normal form is a fixed point of `_normalize_text`. -/
theorem normalizeText_fix (s : String) (h : goodOut s) : normalizeText s = s := by
  obtain ⟨hlow, hstrip, habbrev, hrm1, hrm2, hpunct, hws⟩ := h
  unfold normalizeText
  by_cases hs : s = ""
  · rw [if_pos hs, hs]
  rw [if_neg hs]
  dsimp only
  rw [hlow, hstrip]
  rw [foldl_subScan_id s.data abbrevTable habbrev]
  rw [show subScan removeTable1 none s.data = s.data from
    subScanF_id removeTable1 s.data.length none s.data (by simpa using hrm1)]
  rw [show subScan removeTable2 none s.data = s.data from
    subScanF_id removeTable2 s.data.length none s.data (by simpa using hrm2)]
  have hmap : s.data.map punctFix = s.data := by
    have hcong : s.data.map punctFix = s.data.map id := by
      refine List.map_congr_left ?_
      intro c hc
      have hcw := List.all_eq_true.mp hpunct c hc
      show punctFix c = c
      unfold punctFix
      rw [Bool.or_eq_true] at hcw
      rcases hcw with hw | hsp
      · rw [if_pos (by rw [hw]; rfl)]
      · rw [if_pos (by
          have hce : c = ' ' := of_decide_eq_true hsp
          rw [hce]
          rfl)]
    rw [hcong, List.map_id]
  rw [hmap]
  rw [show collapseWs s.data = s.data from
    collapseF_id s.data.length s.data hws le_rfl]
  show pyStrip (String.mk s.data) = s
  have : String.mk s.data = s := rfl
  rw [this, hstrip]

/-- C8 (amended: normalization is *not* idempotent in general — the output
can itself contain a removable pattern, as with "f&c", whose first pass
yields "fc" and whose second pass yields "" — but it is idempotent on every
input whose output is in normal form, i.e. contains no further match of any
substitution pass): if `normalize(x)` is in normal form then
`normalize(normalize(x)) = normalize(x)`. -/
theorem claimC8 (x : String) (h : goodOut (normalizeText x)) :
    normalizeText (normalizeText x) = normalizeText x :=
  normalizeText_fix (normalizeText x) h

set_option maxRecDepth 20000 in
theorem claimC8_witness :
    goodOut (normalizeText "Lakers") ∧
    normalizeText (normalizeText "Lakers") = normalizeText "Lakers" := by
  have h : goodOut (normalizeText "Lakers") := by
    refine ⟨?_, ?_, ?_, ?_, ?_, ?_, ?_⟩ <;> with_unfolding_all decide
  exact ⟨h, claimC8 "Lakers" h⟩

end TeamStd

